import Mathlib

/-!
Verification of the mongoengine ODM core (`mongoengine/base.py`).

The development shallowly embeds the data model and the operations of the
source file: `BaseDocument.to_mongo`, `BaseDocument._from_son`,
`BaseDocument.__eq__`, `ComplexBaseField.to_mongo`, `ComplexBaseField.__get__`
(the lazy reference resolver), `TopLevelDocumentMetaclass._unique_with_indexes`
and the class-construction bookkeeping of `DocumentMetaclass.__new__`
(`_class_name`, `_superclasses`).  Python dictionaries are modelled as
insertion-ordered association lists; Python `None` stored in `_data` is
identified with absence of the key (the two are indistinguishable through the
field descriptor `__get__`, which substitutes the default for `None`).
-/

namespace Mongoengine

/-- Storage values (a fragment of BSON rich enough for the claims).
`vNull` models Python/BSON `None`/null appearing inside raw records. -/
inductive Value : Type where
  | vNull : Value
  | vStr : String → Value
  | vInt : Int → Value
  | vStrList : List String → Value
  deriving DecidableEq, Repr

/-- Association-list lookup: first binding wins (Python dict has unique keys,
so on well-formed dictionaries this is exact). -/
def lookupK : List (String × Value) → String → Option Value
  | [], _ => none
  | (k', v) :: t, k => if k' = k then some v else lookupK t k

/-- Python `d[k] = v`: overwrite the binding in place, else append. -/
def setK : List (String × Value) → String → Value → List (String × Value)
  | [], k, v => [(k, v)]
  | (k', v') :: t, k, v => if k' = k then (k, v) :: t else (k', v') :: setK t k v

/-- Python `del d[k]` / key stripping: remove the first binding of `k`. -/
def eraseK : List (String × Value) → String → List (String × Value)
  | [], _ => []
  | (k', v') :: t, k => if k' = k then t else (k', v') :: eraseK t k

/-! ### CPython 2 dict key order

`base.py` is Python 2 code and `_superclasses` is a plain `dict`, so the
order `keys()` later yields is the hash table's slot order, not insertion
order.  The relevant parts of CPython 2 are embedded here: `string_hash`
(stringobject.c, 64-bit build) and `lookdict`'s open-addressing probe
sequence over an 8-slot table — dicts smaller than 6 used slots never
resize, which covers every superclass map the metaclass builds. -/

/-- One step of CPython 2's `string_hash`: `x = (1000003*x) ^ c`, with C
`long` wraparound modelled as the 64-bit two's-complement bit pattern. -/
def pyHashStep (x : Nat) (c : Char) : Nat :=
  ((1000003 * x) ^^^ c.toNat) % (2 ^ 64)

/-- CPython 2's `string_hash`: `x = s[0] << 7`, then the step above over every
character, then `x ^= len(s)` (and a result of `-1` is replaced by `-2`);
the empty string hashes to `0`.  Class names are ASCII, so a character is a
byte. -/
def pyHash (s : String) : Nat :=
  match s.toList with
  | [] => 0
  | c :: _ =>
      let x := s.toList.foldl pyHashStep ((c.toNat <<< 7) % (2 ^ 64))
      let y := x ^^^ s.length
      if y = 2 ^ 64 - 1 then 2 ^ 64 - 2 else y

/-- An 8-slot CPython 2 hash table holding only the keys (`ma_table`). -/
abbrev PyTable := List (Option String)

def emptyTable : PyTable := [none, none, none, none, none, none, none, none]

/-- `lookdict`'s probe sequence: the first slot is `hash & 7`; each further
index is `i = 5*i + perturb + 1` (mod 2^64, slot `i & 7`) with `perturb`
starting at the hash and shifted right by 5 each step. -/
def probeSeq : Nat → Nat → Nat → List Nat
  | 0, _, _ => []
  | n + 1, i, perturb =>
      (i % 8) :: probeSeq n ((5 * i + perturb + 1) % (2 ^ 64)) (perturb / 2 ^ 5)

/-- Insert a key not present in the table: it lands in the first free slot
along its probe sequence (these dicts see no deletions, so no dummy entries).
`none` only if 64 probes find no free slot, which cannot happen at the sizes
that reach this table (CPython resizes at 6 used slots). -/
def pyInsert (t : PyTable) (k : String) : Option PyTable :=
  match (probeSeq 64 (pyHash k % 8) (pyHash k)).find?
      (fun s => (t.getD s none).isNone) with
  | none => none
  | some s => some (t.set s (some k))

def pyInsertAll (t : PyTable) : List String → Option PyTable
  | [] => some t
  | k :: ks =>
      match pyInsert t k with
      | none => none
      | some t2 => pyInsertAll t2 ks

/-- `dict.keys()`: the stored keys read off in table-slot order. -/
def dictKeys (t : PyTable) : List String := t.filterMap id

/-- A field descriptor (`BaseField`): attribute name, storage key `db_field`,
and default.  Leaf fields of `base.py` have identity `to_python`/`to_mongo`
coercions, which is what this structure embeds. -/
structure FieldSpec : Type where
  name : String
  db_field : String
  default : Option Value := none
  deriving DecidableEq, Repr

/-- The per-class data computed by `DocumentMetaclass.__new__`:
`_class_name` (dot-joined qualified name), the `_superclasses` dict's keys in
the order `keys()` yields them — hash-table slot order, since this is a
Python 2 dict — the merged `_fields`, and `_meta['allow_inheritance']`. -/
structure DocClass : Type where
  class_name : String
  superclassKeys : List String
  fields : List FieldSpec
  allow_inheritance : Bool := true
  id_name : String := "id"
  deriving DecidableEq, Repr

/-- `doc_fields.update(base._fields)` then own attributes win by name. -/
def mergeFields (base own : List FieldSpec) : List FieldSpec :=
  base.filter (fun f => own.all (fun g => g.name ≠ f.name)) ++ own

/-- A class with no document bases (a direct `Document` subclass). -/
def mkRootClass (name : String) (fields : List FieldSpec)
    (allow_inheritance : Bool := true) : DocClass :=
  { class_name := name, superclassKeys := [], fields := fields,
    allow_inheritance := allow_inheritance }

/-- Single-inheritance step of `DocumentMetaclass.__new__`:
`_class_name = '.'.join(reversed([name, base._class_name]))` and
`superclasses = {}; superclasses[base._class_name] = base;
superclasses.update(base._superclasses)`.  The dict is built by inserting the
direct base's name and then the base's own superclass keys (in the base's
`keys()` order), but what `superclassKeys` records is the resulting `keys()`
order — hash-slot order, which need not match the insertion sequence.  The
`none` arm is unreachable for the table sizes that occur (CPython would have
resized first). -/
def mkSubClass (name : String) (base : DocClass) (own : List FieldSpec)
    (allow_inheritance : Bool := true) : DocClass :=
  { class_name := base.class_name ++ "." ++ name,
    superclassKeys :=
      match pyInsertAll emptyTable (base.class_name :: base.superclassKeys) with
      | some t => dictKeys t
      | none => base.class_name :: base.superclassKeys,
    fields := mergeFields base.fields own,
    allow_inheritance := allow_inheritance }

/-- A document instance: its class, its `_data` (absent key ≡ stored `None`),
and `_present_fields`. -/
structure DocInstance : Type where
  cls : DocClass
  data : List (String × Value)
  present_fields : List String := []
  deriving DecidableEq, Repr

/-- `BaseField.__get__`: the stored value if available, else the default
(`None` stored is indistinguishable from absent, both yield the default). -/
def fieldGet (doc : DocInstance) (f : FieldSpec) : Option Value :=
  match lookupK doc.data f.name with
  | some v => some v
  | none => f.default

/-- The field-writing loop of `BaseDocument.to_mongo`: for every field whose
`getattr` value is not `None`, write it under `db_field` (dict semantics). -/
def encFieldsAux (doc : DocInstance) :
    List FieldSpec → List (String × Value) → List (String × Value)
  | [], acc => acc
  | f :: t, acc =>
      match fieldGet doc f with
      | some v => encFieldsAux doc t (setK acc f.db_field v)
      | none => encFieldsAux doc t acc

def encFields (doc : DocInstance) : List (String × Value) :=
  encFieldsAux doc doc.cls.fields []

/-- `BaseDocument.to_mongo`: encode the fields, add `_cls`/`_types` unless
`allow_inheritance` is `False`, and drop an `_id` that is null. -/
def to_mongo (doc : DocInstance) : List (String × Value) :=
  let data := encFields doc
  let data :=
    if doc.cls.allow_inheritance then
      setK (setK data "_cls" (Value.vStr doc.cls.class_name)) "_types"
        (Value.vStrList (doc.cls.superclassKeys ++ [doc.cls.class_name]))
    else data
  if lookupK data "_id" = some Value.vNull then eraseK data "_id" else data

/-- The decode loop of `_from_son`: `data[field_name] = (value if value is None
else field.to_python(value))`, reading from and writing into the same dict
(`to_python` is the identity for the leaf fields embedded here). -/
def decodeLoop : List FieldSpec → List (String × Value) → List (String × Value)
  | [], data => data
  | f :: t, data =>
      match lookupK data f.db_field with
      | some v => decodeLoop t (setK data f.name v)
      | none => decodeLoop t data

/-- `cls(**data)` as seen through `_data`: keyword arguments whose name is a
declared field route through the descriptor `__set__` into `_data`; a `None`
value stored is identified with absence; other keys become plain attributes
invisible to field access. -/
def mkInstanceDataAux (fields : List FieldSpec) :
    List (String × Value) → List (String × Value) → List (String × Value)
  | acc, [] => acc
  | acc, kv :: t =>
      if fields.any (fun f => f.name = kv.1) ∧ kv.2 ≠ Value.vNull then
        mkInstanceDataAux fields (setK acc kv.1 kv.2) t
      else mkInstanceDataAux fields acc t

def mkInstanceData (fields : List FieldSpec) (vals : List (String × Value)) :
    List (String × Value) :=
  mkInstanceDataAux fields [] vals

/-- `BaseDocument._from_son`.  `subclasses` is the descendant map that
`cls._get_subclasses()` would return (qualified name → class).  Returns
`none` exactly when the son's `_cls` names a class that is neither `cls`
nor one of its registered descendants. -/
def fromSon (subclasses : List (String × DocClass)) (cls : DocClass)
    (son : List (String × Value)) : Option DocInstance :=
  let data := eraseK (eraseK son "_types") "_cls"
  let build := fun (c : DocClass) =>
    let present := data.map Prod.fst
    let decoded := decodeLoop c.fields data
    some { cls := c, data := mkInstanceData c.fields decoded,
           present_fields := present }
  match lookupK son "_cls" with
  | none => build cls
  | some (Value.vStr s) =>
      if s = cls.class_name then build cls
      else
        match (subclasses.find? (fun p => p.1 = s)).map Prod.snd with
        | none => none
        | some c => build c
  | some _ => none

/-- `isinstance(other, self.__class__)` over qualified names: `b` is an
instance of class `c` when `c`'s name is `b`'s own name or an ancestor's. -/
def instanceOf (b : DocInstance) (c : DocClass) : Bool :=
  b.cls.class_name = c.class_name ∨ b.cls.superclassKeys.contains c.class_name

/-- `self.id`: the value of the primary-key alias field through `__get__`. -/
def idOf (d : DocInstance) : Option Value :=
  match d.cls.fields.find? (fun f => f.name = d.cls.id_name) with
  | some f => fieldGet d f
  | none => none

/-- `BaseDocument.__eq__`: equal iff `other` is an instance of `self`'s class
and the primary keys compare equal (no other field is consulted). -/
def docEq (a b : DocInstance) : Bool :=
  instanceOf b a.cls ∧ idOf a = idOf b

/-! ### Container reference encoding (`ComplexBaseField.to_mongo`) -/

/-- What matters about a referenced `Document` when a container encodes it:
its primary key, its `_meta['collection']`, its `_meta['allow_inheritance']`
and its `_class_name`. -/
structure RefTarget : Type where
  pk : Option Value
  collection : String
  class_name : String
  allow_inheritance : Bool
  deriving DecidableEq, Repr

/-- An entry of a container field: a referenced `Document` instance, or any
other (non-document) value, passed through unchanged by this model. -/
inductive CItem : Type where
  | doc : RefTarget → CItem
  | plain : Value → CItem
  deriving DecidableEq, Repr

/-- Wire shapes of an encoded container entry: a direct reference
(`pymongo.dbref.DBRef(collection, id)`), a generic reference
(the `{_cls: …, _ref: DBRef(collection, id)}` sub-record), or a plain value. -/
inductive Wire : Type where
  | dbref : String → Value → Wire
  | genericRef : String → String → Value → Wire
  | plain : Value → Wire
  deriving DecidableEq, Repr

def Wire.isGeneric : Wire → Bool
  | .genericRef _ _ _ => true
  | _ => false

/-- Modelled from the spec: `GenericReferenceField.to_mongo` (defined in
`fields.py`, which is not part of the sources) produces the generic reference
sub-record `{_cls: <discriminator>, _ref: (collection, id)}` (spec section 6). -/
def genericReferenceToMongo (d : RefTarget) (pk : Value) : Wire :=
  Wire.genericRef d.class_name d.collection pk

/-- One entry of `ComplexBaseField.to_mongo`'s `else` branch (no inner
`self.field`): a referenced document with no primary key fails with
`ValidationError`; one whose `_meta['allow_inheritance']` is `False` becomes a
generic reference (it has no `_cls`/`_types` data of its own, so the reference
must carry the class); otherwise a direct `DBRef(collection, pk)`. -/
def complexItemToMongo : CItem → Except String Wire
  | .doc v =>
      match v.pk with
      | none => .error "ValidationError: You can only reference documents once they have been saved to the database"
      | some pk =>
          if v.allow_inheritance = false then .ok (genericReferenceToMongo v pk)
          else .ok (Wire.dbref v.collection pk)
  | .plain w => .ok (Wire.plain w)

/-- `ComplexBaseField.to_mongo` over a list container: each entry is encoded
in order (the dict-of-enumerate round trip preserves positions), stopping at
the first `ValidationError`. -/
def complexToMongo : List CItem → Except String (List Wire)
  | [] => .ok []
  | i :: t =>
      match complexItemToMongo i with
      | .error e => .error e
      | .ok w =>
          match complexToMongo t with
          | .error e => .error e
          | .ok ws => .ok (w :: ws)

/-! ### Lazy reference resolution (`ComplexBaseField.__get__`) -/

/-- A raw record of the external store: collection, `_id` and `_cls`
(identifiers are abstracted to integers). -/
structure StoreRec : Type where
  coll : String
  id : Int
  cls : String
  deriving DecidableEq, Repr

/-- A container entry during dereferencing: a direct reference
(`pymongo.dbref.DBRef(collection, id)`), a generic reference
(a `{_cls: …, _ref: …}` sub-record, carrying the class; its collection is
resolved through the registry), an already-resolved document instance
(the `_from_son` result abstracted to its class/collection/id tag), or any
other plain value. -/
inductive RItem : Type where
  | dbref : String → Int → RItem
  | gref : String → Int → RItem
  | resolved : String → String → Int → RItem
  | plain : Value → RItem
  deriving DecidableEq, Repr

def isRef : RItem → Bool
  | .dbref _ _ => true
  | .gref _ _ => true
  | _ => false

/-- One batched `db[collection].find({'_id': {'$in': ids}})` call. -/
structure Query : Type where
  coll : String
  ids : List Int
  deriving DecidableEq, Repr

/-- The identifiers of the direct references of a container. -/
def dbrefIds : List RItem → List Int
  | [] => []
  | .dbref _ i :: t => i :: dbrefIds t
  | _ :: t => dbrefIds t

/-- `collections.setdefault(coll, []).append(entry)`, preserving the
first-occurrence order of collections. -/
def addEntry : List (String × List (Nat × RItem)) → String → Nat × RItem →
    List (String × List (Nat × RItem))
  | [], c, e => [(c, [e])]
  | (c', es) :: t, c, e =>
      if c' = c then (c', es ++ [e]) :: t else (c', es) :: addEntry t c e

/-- Registry lookup backing `get_document`: class name → its collection. -/
def lookupReg : List (String × String) → String → Option String
  | [], _ => none
  | (c, col) :: t, k => if c = k then some col else lookupReg t k

/-- The partition-by-collection pass of `ComplexBaseField.__get__` (the loop
filling `collections`): direct references are grouped under their own
collection, generic references under
`get_document(v['_cls'])._meta['collection']` (`get_document` raises
`NotRegistered` for an unknown class); other entries are skipped. -/
def buildCols (reg : List (String × String)) :
    List RItem → Nat → List (String × List (Nat × RItem)) →
    Except String (List (String × List (Nat × RItem)))
  | [], _, acc => .ok acc
  | .dbref c i :: t, k, acc =>
      buildCols reg t (k + 1) (addEntry acc c (k, .dbref c i))
  | .gref cls i :: t, k, acc =>
      match lookupReg reg cls with
      | some c => buildCols reg t (k + 1) (addEntry acc c (k, .gref cls i))
      | none => .error ("NotRegistered: " ++ cls)
  | _ :: t, k, acc => buildCols reg t (k + 1) acc

/-- `id_map[id] = (position, class or None)`: dict overwrite semantics. -/
def setIdm : List (Int × (Nat × Option String)) → Int → Nat × Option String →
    List (Int × (Nat × Option String))
  | [], i, p => [(i, p)]
  | (i', p') :: t, i, p =>
      if i' = i then (i, p) :: t else (i', p') :: setIdm t i p

def lookupIdm : List (Int × (Nat × Option String)) → Int →
    Option (Nat × Option String)
  | [], _ => none
  | (i', p) :: t, i => if i' = i then some p else lookupIdm t i

/-- The `id_map` loop: a direct reference records `(position, None)`, a
generic reference records `(position, its _cls)`. -/
def buildIdMap : List (Nat × RItem) →
    List (Int × (Nat × Option String)) → List (Int × (Nat × Option String))
  | [], m => m
  | (k, .dbref _ i) :: t, m => buildIdMap t (setIdm m i (k, none))
  | (k, .gref cls i) :: t, m => buildIdMap t (setIdm m i (k, some cls))
  | _ :: t, m => buildIdMap t m

/-- The splice loop over the fetched records: for each record returned,
`key, doc_cls = id_map[ref['_id']]`, a direct reference recovers its class
from the record's `_cls` through `get_document` (raising `NotRegistered`
when unknown), and `dbref[key] = doc_cls._from_son(ref)` (the decoded
instance abstracted to a `resolved` tag). -/
def spliceFound (reg : List (String × String)) (coll : String)
    (idm : List (Int × (Nat × Option String))) :
    List StoreRec → List RItem → Except String (List RItem)
  | [], dbref => .ok dbref
  | r :: t, dbref =>
      match lookupIdm idm r.id with
      | some (k, some cls) =>
          spliceFound reg coll idm t (dbref.set k (.resolved cls coll r.id))
      | some (k, none) =>
          match lookupReg reg r.cls with
          | some _ =>
              spliceFound reg coll idm t (dbref.set k (.resolved r.cls coll r.id))
          | none => .error ("NotRegistered: " ++ r.cls)
      | none => spliceFound reg coll idm t dbref

/-- The per-collection loop: build the `id_map`, issue the one batched
query for this collection, splice the results, continue with the next
collection.  Returns the updated container and the queries issued. -/
def derefStep (reg : List (String × String)) (db : List StoreRec) :
    List (String × List (Nat × RItem)) → List RItem →
    Except String (List RItem × List Query)
  | [], dbref => .ok (dbref, [])
  | (coll, entries) :: rest, dbref =>
      let idm := buildIdMap entries []
      let ids := idm.map Prod.fst
      match spliceFound reg coll idm
          (db.filter (fun r => decide (r.coll = coll ∧ r.id ∈ ids))) dbref with
      | .error e => .error e
      | .ok dbref2 =>
          match derefStep reg db rest dbref2 with
          | .error e => .error e
          | .ok (out, qs) => .ok (out, Query.mk coll ids :: qs)

/-- The dereferencing core of `ComplexBaseField.__get__` for a list-valued
field: partition the entries by target collection, issue one `$in` query
per collection, splice the fetched documents back into their original
positions, and return the container (cached by the descriptor in
`instance._data`, so a later access runs the same pass on the result)
together with the list of queries issued. -/
def derefResolve (reg : List (String × String)) (db : List StoreRec)
    (items : List RItem) : Except String (List RItem × List Query) :=
  match buildCols reg items 0 [] with
  | .error e => .error e
  | .ok cols => derefStep reg db cols items

/-- The position-indexed entry list a run of the partition pass produces for
a single-collection container. -/
def enumItems : Nat → List RItem → List (Nat × RItem)
  | _, [] => []
  | k, it :: t => (k, it) :: enumItems (k + 1) t

/-- The `id_map` contents for a container of direct references. -/
def idmOf : Nat → List RItem → List (Int × (Nat × Option String))
  | _, [] => []
  | k, .dbref _ i :: t => (i, (k, none)) :: idmOf (k + 1) t
  | k, _ :: t => idmOf (k + 1) t

/-- Whether an entry is a direct reference into collection `c`. -/
def isDbrefTo (c : String) : RItem → Bool
  | .dbref c' _ => c' = c
  | _ => false

/-- Position `k` of the container receives a spliced document: some fetched
record's identifier maps to `k` in the `id_map`. -/
def hitsPos (found : List StoreRec)
    (idm : List (Int × (Nat × Option String))) (k : Nat) : Prop :=
  ∃ r ∈ found, ∃ ocls, lookupIdm idm r.id = some (k, ocls)

/-! ### Index planner (`TopLevelDocumentMetaclass._unique_with_indexes`) -/

/-- A field as the index planner sees it: attribute name, storage key
`db_field`, `unique`, `unique_with` (dotted paths; the source also accepts a
bare string, normalized to a one-element list before use), `required`, and —
when the field is an `EmbeddedDocumentField` — the field list of its
embedded document type. -/
inductive UField : Type where
  | mk : String → String → Bool → List String → Bool → Option (List UField) →
      UField
  deriving Repr

def UField.name : UField → String
  | .mk n _ _ _ _ _ => n

def UField.db_field : UField → String
  | .mk _ d _ _ _ _ => d

def UField.uniq : UField → Bool
  | .mk _ _ u _ _ _ => u

def UField.unique_with : UField → List String
  | .mk _ _ _ uw _ _ => uw

def UField.embedded : UField → Option (List UField)
  | .mk _ _ _ _ _ e => e

/-- `field.required = True` on a descriptor. -/
def setReq : UField → UField
  | .mk n d u uw _ e => .mk n d u uw true e

/-- Field lookup by attribute name in a schema's field list. -/
def lookupUF : List UField → String → Option UField
  | [], _ => none
  | f :: t, n => if f.name = n then some f else lookupUF t n

/-- Modelled from the spec: `QuerySet._lookup_field` (defined in
`queryset.py`, which is not part of the sources) resolves a dotted
field-name path through nested schemas to the chain of FieldDescriptors it
traverses, failing for an unknown name or a non-embedded intermediate. -/
def lookupPath : List UField → List String → Option (List UField)
  | _, [] => some []
  | flds, p :: ps =>
      match lookupUF flds p with
      | none => none
      | some f =>
          match ps with
          | [] => some [f]
          | _ :: _ =>
              match f.embedded with
              | some sub => (lookupPath sub ps).map (fun chain => f :: chain)
              | none => none

/-- `other_name.split('.')`: split a dotted path at the dots. -/
def splitPathAux : List Char → List Char → List String
  | [], cur => [String.mk cur.reverse]
  | c :: rest, cur =>
      if c = '.' then String.mk cur.reverse :: splitPathAux rest []
      else splitPathAux rest (c :: cur)

def splitPath (s : String) : List String := splitPathAux s.toList []

/-- Resolution of the `unique_with` entries to real dotted storage paths:
`parts = QuerySet._lookup_field(new_class, other_name.split('.'))` and
`'.'.join(part.db_field for part in parts)`. -/
def resolveUW (flds : List UField) : List String → Except String (List String)
  | [] => .ok []
  | p :: ps =>
      match lookupPath flds (splitPath p) with
      | none => .error ("Cannot resolve field " ++ p)
      | some chain =>
          match resolveUW flds ps with
          | .error e => .error e
          | .ok rest =>
              .ok (String.intercalate "." (chain.map UField.db_field) :: rest)

/-- The index a `unique` field contributes at the current level:
`[(namespace + storage_key, ASCENDING)]` over `[db_field] + unique_with`
(`pymongo.ASCENDING = 1`), with the `unique_with` entries resolved against
the current level's schema. -/
def ownIdx (all : List UField) (f : UField) (ns : String) :
    Except String (List (List (String × Int))) :=
  if f.uniq then
    match resolveUW all f.unique_with with
    | Except.error e => Except.error e
    | Except.ok uw => Except.ok [(f.db_field :: uw).map (fun s => (ns ++ s, 1))]
  else Except.ok []

mutual
/-- `TopLevelDocumentMetaclass._unique_with_indexes(new_class, namespace)`:
walk the fields in order; a `unique` field contributes its own compound
index; an `EmbeddedDocumentField` recursively contributes its document
type's unique indexes under the `<field_name>.` namespace. -/
def uwIndexes : List UField → List UField → String →
    Except String (List (List (String × Int)))
  | _, [], _ => Except.ok []
  | all, f :: t, ns =>
      Except.bind (ownIdx all f ns) (fun own =>
        Except.bind (subIdx f ns) (fun sidx =>
          Except.bind (uwIndexes all t ns) (fun rest =>
            Except.ok (own ++ sidx ++ rest))))
  termination_by _ rem _ => (sizeOf rem, 0)
  decreasing_by all_goals (simp_wf; omega)

/-- The embedded recursion of `_unique_with_indexes`:
`cls._unique_with_indexes(field.document_type, "%s." % field_name)`. -/
def subIdx : UField → String → Except String (List (List (String × Int)))
  | UField.mk n _ _ _ _ (some sub), ns =>
      uwIndexes sub sub (ns ++ n ++ ".")
  | _, _ => Except.ok []
  termination_by f _ => (sizeOf f, 1)
  decreasing_by all_goals (simp_wf; omega)
end

mutual
/-- `parts[-1].required = True`: set `required` on the descriptor a dotted
path resolves to (descending through embedded schemas). -/
def promoteAtPath : List UField → List String → List UField
  | flds, [] => flds
  | flds, p :: ps => flds.map (promOne p ps)
  termination_by _ path => (sizeOf path, 0)

/-- The per-field update of `promoteAtPath`: the named field is promoted
(at the last path component) or its embedded schema is promoted along the
rest of the path; other fields are untouched. -/
def promOne (p : String) (ps : List String) (f : UField) : UField :=
  if f.name = p then
    match ps with
    | [] => setReq f
    | q :: qs =>
        match f with
        | .mk n d u uw r (some sub) =>
            .mk n d u uw r (some (promoteAtPath sub (q :: qs)))
        | g => g
  else f
  termination_by (sizeOf ps, 1)
end

/-- The promotions one level of `_unique_with_indexes` performs, in field
order: each `unique` field itself (`field.required = True`) followed by its
`unique_with` targets. -/
def pathsToPromote : List UField → List (List String)
  | [] => []
  | f :: t =>
      if f.uniq then
        ([f.name] :: f.unique_with.map splitPath) ++ pathsToPromote t
      else pathsToPromote t

mutual
/-- The full `required`-promotion pass of `_unique_with_indexes` over a
schema: embedded document types are promoted recursively, and the level's
own promotion paths applied.  All the source's mutations only ever set
`required` to `True` on name-addressed descriptors, so they commute; the
model applies children first and the level's paths second. -/
def promoteSchema (flds : List UField) : List UField :=
  (pathsToPromote (promoteChildren flds)).foldl
    (fun acc p => promoteAtPath acc p) (promoteChildren flds)
  termination_by (sizeOf flds, 2)
  decreasing_by all_goals omega

def promoteChildren : List UField → List UField
  | [] => []
  | f :: t => childOne f :: promoteChildren t
  termination_by l => (sizeOf l, 1)
  decreasing_by all_goals (simp_wf; omega)

/-- Promotion of one field's embedded document type. -/
def childOne : UField → UField
  | UField.mk n d u uw r (some sub) =>
      UField.mk n d u uw r (some (promoteSchema sub))
  | f => f
  termination_by f => (sizeOf f, 0)
  decreasing_by all_goals (simp_wf; omega)
end

/-- The four reverse-delete rules registered by `register_delete_rule`. -/
inductive DRule where
  | do_nothing : DRule
  | nullify : DRule
  | cascade : DRule
  | deny : DRule
deriving DecidableEq, Repr

/-- One registry entry: documents in `src_coll` whose field `field` references
collection `target_coll` carry rule `rule` (registered on the target class by
`register_delete_rule(new_class, field_name, delete_rule)`). -/
structure DeleteRule where
  target_coll : String
  src_coll : String
  field : String
  rule : DRule
deriving DecidableEq, Repr

/-- A stored document for the engine: its collection, identifier, and its
reference fields (`none` = reference unset). -/
structure SDoc where
  coll : String
  id : Int
  refs : List (String × Option (String × Int))
deriving DecidableEq, Repr

/-- The external store collaborator's state: all persisted documents. -/
abbrev Store := List SDoc

/-- Destructive calls the engine issues against the store collaborator. -/
inductive Op where
  | del : String → Int → Op
  | persistUnset : String → Int → String → Op
deriving DecidableEq, Repr

/-- Look up a reference field by name. -/
def lookupRef : List (String × Option (String × Int)) → String →
    Option (Option (String × Int))
  | [], _ => none
  | (k, v) :: rest, f => if k = f then some v else lookupRef rest f

/-- Unset a reference field (NULLIFY's delta). -/
def unsetRef : List (String × Option (String × Int)) → String →
    List (String × Option (String × Int))
  | [], _ => []
  | (k, v) :: rest, f =>
      if k = f then (k, none) :: rest else (k, v) :: unsetRef rest f

/-- Modelled from the spec: the reverse lookup "query all documents in that
schema's collection whose reference field equals I". -/
def refersTo (d : SDoc) (f c : String) (i : Int) : Bool :=
  decide (lookupRef d.refs f = some (some (c, i)))

/-- Documents of `r`'s referencing collection currently pointing at `(c, i)`. -/
def matchingDocs (s : Store) (r : DeleteRule) (c : String) (i : Int) :
    List SDoc :=
  s.filter (fun d => decide (d.coll = r.src_coll) && refersTo d r.field c i)

/-- Registry entries whose target is collection `c`. -/
def rulesFor (rules : List DeleteRule) (c : String) : List DeleteRule :=
  rules.filter (fun r => decide (r.target_coll = c))

/-- Modelled from the spec: the DENY pre-flight — some registered DENY rule for
`c` still has a referencing document. -/
def denyViolated (rules : List DeleteRule) (s : Store) (c : String) (i : Int) :
    Bool :=
  (rulesFor rules c).any
    (fun r => decide (r.rule = DRule.deny) && !(matchingDocs s r c i).isEmpty)

/-- Remove document `(c, i)` from the store. -/
def removeDoc (s : Store) (c : String) (i : Int) : Store :=
  s.filter (fun d => !(decide (d.coll = c) && decide (d.id = i)))

/-- NULLIFY's persisted delta: unset field `f` on document `(c, j)`. -/
def nullifyDoc (s : Store) (c : String) (j : Int) (f : String) : Store :=
  s.map (fun d =>
    if decide (d.coll = c) && decide (d.id = j) then
      SDoc.mk d.coll d.id (unsetRef d.refs f)
    else d)

mutual

/-- Modelled from the spec: the deletion event for document `(c, i)`. The DENY
pre-flight runs first across all registered rules; only if it passes are
CASCADE/NULLIFY rules applied and the document itself deleted. Returns the
resulting store (or the raised error) together with the ordered list of
destructive calls issued. `fuel` bounds cascade depth. -/
def deleteEvent (fuel : Nat) (rules : List DeleteRule) (s : Store)
    (c : String) (i : Int) : (Except String Store) × List Op :=
  if denyViolated rules s c i then (Except.error "OperationError", [])
  else
    match applyRules fuel rules (rulesFor rules c) s c i with
    | (Except.error e, ops) => (Except.error e, ops)
    | (Except.ok s1, ops) =>
        (Except.ok (removeDoc s1 c i), ops ++ [Op.del c i])
termination_by (fuel, 2, 0)

/-- Apply each registered rule for the deletion of `(c, i)` in turn, threading
the store and accumulating the issued destructive calls. -/
def applyRules (fuel : Nat) (rules : List DeleteRule) (rs : List DeleteRule)
    (s : Store) (c : String) (i : Int) : (Except String Store) × List Op :=
  match rs with
  | [] => (Except.ok s, [])
  | r :: rest =>
      match applyOne fuel rules r ((matchingDocs s r c i).map SDoc.id) s with
      | (Except.error e, ops) => (Except.error e, ops)
      | (Except.ok s1, ops) =>
          match applyRules fuel rules rest s1 c i with
          | (res, ops2) => (res, ops ++ ops2)
termination_by (fuel, 1, sizeOf rs)

/-- Apply one rule to each matching document: CASCADE re-enters the deletion
event (consuming fuel), NULLIFY unsets the reference and persists, DENY and
DO_NOTHING act on nothing here (DENY was already pre-flighted). -/
def applyOne (fuel : Nat) (rules : List DeleteRule) (r : DeleteRule)
    (ids : List Int) (s : Store) : (Except String Store) × List Op :=
  match ids with
  | [] => (Except.ok s, [])
  | j :: rest =>
      match r.rule with
      | DRule.cascade =>
          match fuel with
          | 0 => (Except.error "fuel exhausted", [])
          | Nat.succ f =>
              match deleteEvent f rules s r.src_coll j with
              | (Except.error e, ops) => (Except.error e, ops)
              | (Except.ok s1, ops) =>
                  match applyOne (Nat.succ f) rules r rest s1 with
                  | (res, ops2) => (res, ops ++ ops2)
      | DRule.nullify =>
          match applyOne fuel rules r rest (nullifyDoc s r.src_coll j r.field)
          with
          | (res, ops2) => (res, Op.persistUnset r.src_coll j r.field :: ops2)
      | DRule.deny => applyOne fuel rules r rest s
      | DRule.do_nothing => applyOne fuel rules r rest s
termination_by (fuel, 0, sizeOf ids)

end

/-! ### Example schemas (used by witnesses and counterexamples) -/

/-- `id` descriptor the metaclass synthesizes: `ObjectIdField(db_field='_id')`. -/
def idField : FieldSpec := { name := "id", db_field := "_id" }

def personClass : DocClass :=
  mkRootClass "Person"
    [idField, { name := "name", db_field := "name" },
     { name := "age", db_field := "age" }]

/-- Three-level hierarchy `Animal → Mammal → Dog` built through the
metaclass model. -/
def animalClass : DocClass := mkRootClass "Animal" [idField]

def mammalClass : DocClass := mkSubClass "Mammal" animalClass []

def dogClass : DocClass := mkSubClass "Dog" mammalClass []

def dogInstance : DocInstance := { cls := dogClass, data := [] }

/-- A populated, unsaved `Person` instance. -/
def personDoc : DocInstance :=
  { cls := personClass,
    data := [("name", Value.vStr "Guido"), ("age", Value.vInt 35)] }

/-- A saved `Person` document as a reference target: its schema permits
polymorphism (`allow_inheritance` defaults to `True`). -/
def savedPerson : RefTarget :=
  { pk := some (Value.vInt 1), collection := "person",
    class_name := "Person", allow_inheritance := true }

/-- A saved document of a schema with `allow_inheritance = False`. -/
def savedSealed : RefTarget :=
  { pk := some (Value.vInt 2), collection := "sealed",
    class_name := "Sealed", allow_inheritance := false }

/-! ### Dictionary lemmas -/

theorem lookupK_setK_eq (l : List (String × Value)) (k : String) (v : Value) :
    lookupK (setK l k v) k = some v := by
  induction l with
  | nil => simp [setK, lookupK]
  | cons h t ih =>
      by_cases hk : h.1 = k
      · simp [setK, hk, lookupK]
      · simp [setK, hk, lookupK, ih]

theorem lookupK_setK_ne (k k' : String) (v : Value) (h : k' ≠ k) :
    ∀ l : List (String × Value), lookupK (setK l k v) k' = lookupK l k'
  | [] => by
      have h2 : ¬(k = k') := fun hh => h hh.symm
      simp [setK, lookupK, h2]
  | (a, b) :: t => by
      by_cases hk : a = k
      · subst hk
        have h2 : ¬(a = k') := fun hh => h hh.symm
        simp [setK, lookupK, h2]
      · by_cases hk' : a = k'
        · simp [setK, hk, lookupK, hk', h]
        · simp [setK, hk, lookupK, hk', lookupK_setK_ne k k' v h t]

theorem lookupK_eraseK_ne (k k' : String) (h : k' ≠ k) :
    ∀ l : List (String × Value), lookupK (eraseK l k) k' = lookupK l k'
  | [] => by simp [eraseK]
  | (a, b) :: t => by
      by_cases hk : a = k
      · subst hk
        have h2 : ¬(a = k') := fun hh => h hh.symm
        simp [eraseK, lookupK, h2]
      · by_cases hk' : a = k'
        · simp [eraseK, hk, lookupK, hk', h]
        · simp [eraseK, hk, lookupK, hk', lookupK_eraseK_ne k k' h t]

theorem lookupK_eq_none (k : String) :
    ∀ l : List (String × Value), k ∉ l.map Prod.fst → lookupK l k = none
  | [], _ => rfl
  | (a, b) :: t, h => by
      have ha : a ≠ k := fun hh => h (by simp [hh])
      have ht : k ∉ t.map Prod.fst := fun hh => h (by simp [hh])
      simp [lookupK, ha, lookupK_eq_none k t ht]

theorem lookupK_append (k : String) (m : List (String × Value)) :
    ∀ l : List (String × Value),
      lookupK (l ++ m) k
        = match lookupK l k with
          | some v => some v
          | none => lookupK m k
  | [] => rfl
  | (a, b) :: t => by
      by_cases ha : a = k
      · simp [lookupK, ha]
      · simp [lookupK, ha, lookupK_append k m t]

theorem setK_fresh (k : String) (v : Value) :
    ∀ l : List (String × Value), k ∉ l.map Prod.fst → setK l k v = l ++ [(k, v)]
  | [], _ => rfl
  | (a, b) :: t, h => by
      have ha : a ≠ k := fun hh => h (by simp [hh])
      have ht : k ∉ t.map Prod.fst := fun hh => h (by simp [hh])
      simp [setK, ha, setK_fresh k v t ht]

theorem eraseK_not_mem (k : String) :
    ∀ l : List (String × Value), k ∉ l.map Prod.fst → eraseK l k = l
  | [], _ => rfl
  | (a, b) :: t, h => by
      have ha : a ≠ k := fun hh => h (by simp [hh])
      have ht : k ∉ t.map Prod.fst := fun hh => h (by simp [hh])
      simp [eraseK, ha, eraseK_not_mem k t ht]

theorem eraseK_append_left (k : String) (m : List (String × Value)) :
    ∀ l : List (String × Value), k ∉ l.map Prod.fst →
      eraseK (l ++ m) k = l ++ eraseK m k
  | [], _ => rfl
  | (a, b) :: t, h => by
      have ha : a ≠ k := fun hh => h (by simp [hh])
      have ht : k ∉ t.map Prod.fst := fun hh => h (by simp [hh])
      simp [eraseK, ha, eraseK_append_left k m t ht]

theorem keys_setK (k : String) (v : Value) :
    ∀ l : List (String × Value),
      (setK l k v).map Prod.fst
        = if k ∈ l.map Prod.fst then l.map Prod.fst else l.map Prod.fst ++ [k]
  | [] => by simp [setK]
  | (a, b) :: t => by
      by_cases ha : a = k
      · simp [setK, ha]
      · have hne : ¬(a = k) := ha
        have hka : ¬(k = a) := fun hh => ha hh.symm
        by_cases hk : k ∈ t.map Prod.fst
        · simp [setK, hne, keys_setK k v t, hk, hka]
        · simp [setK, hne, keys_setK k v t, hk, hka]

theorem keys_setK_nodup (k : String) (v : Value) (l : List (String × Value))
    (h : (l.map Prod.fst).Nodup) : ((setK l k v).map Prod.fst).Nodup := by
  rw [keys_setK]
  by_cases hmem : k ∈ l.map Prod.fst
  · rw [if_pos hmem]; exact h
  · rw [if_neg hmem]
    simp only [List.nodup_append]
    exact ⟨h, List.nodup_singleton k, by simp [List.disjoint_left, hmem]⟩

/-! ### Characterizing the encoded record -/

theorem encFieldsAux_eq (doc : DocInstance) :
    ∀ (fs : List FieldSpec) (acc : List (String × Value)),
      (fs.map FieldSpec.db_field).Nodup →
      (∀ f ∈ fs, f.db_field ∉ acc.map Prod.fst) →
      encFieldsAux doc fs acc
        = acc ++ fs.filterMap
            (fun f => (fieldGet doc f).map (fun v => (f.db_field, v)))
  | [], acc, _, _ => by simp [encFieldsAux]
  | f :: t, acc, hnd, hfresh => by
      have h1 : f.db_field ∉ t.map FieldSpec.db_field :=
        (List.nodup_cons.mp (by simpa using hnd)).1
      have h2 : (t.map FieldSpec.db_field).Nodup :=
        (List.nodup_cons.mp (by simpa using hnd)).2
      cases hget : fieldGet doc f with
      | none =>
          simp only [encFieldsAux, hget, List.filterMap_cons, Option.map_none']
          exact encFieldsAux_eq doc t acc h2 (fun g hg => hfresh g (by simp [hg]))
      | some v =>
          simp only [encFieldsAux, hget, List.filterMap_cons, Option.map_some']
          rw [setK_fresh f.db_field v acc (hfresh f (by simp))]
          rw [encFieldsAux_eq doc t (acc ++ [(f.db_field, v)]) h2 ?_]
          · simp
          · intro g hg
            simp only [List.map_append, List.mem_append]
            rintro (hga | hga)
            · exact hfresh g (by simp [hg]) hga
            · simp only [List.map_cons, List.map_nil, List.mem_singleton] at hga
              exact h1 (hga ▸ List.mem_map_of_mem FieldSpec.db_field hg)

theorem encFields_eq (doc : DocInstance)
    (H2 : (doc.cls.fields.map FieldSpec.db_field).Nodup) :
    encFields doc
      = doc.cls.fields.filterMap
          (fun f => (fieldGet doc f).map (fun v => (f.db_field, v))) := by
  unfold encFields
  rw [encFieldsAux_eq doc doc.cls.fields [] H2 (by simp)]
  simp

theorem keys_filterMapEnc_sublist (doc : DocInstance) :
    ∀ fs : List FieldSpec,
      ((fs.filterMap
          (fun f => (fieldGet doc f).map (fun v => (f.db_field, v)))).map
        Prod.fst).Sublist (fs.map FieldSpec.db_field)
  | [] => by simp
  | f :: t => by
      cases hget : fieldGet doc f with
      | none =>
          simp only [List.filterMap_cons, hget, Option.map_none', List.map_cons]
          exact (keys_filterMapEnc_sublist doc t).cons f.db_field
      | some v =>
          simp only [List.filterMap_cons, hget, Option.map_some', List.map_cons]
          exact (keys_filterMapEnc_sublist doc t).cons₂ f.db_field

theorem lookupK_filterMapEnc (doc : DocInstance) :
    ∀ (fs : List FieldSpec) (f : FieldSpec), f ∈ fs →
      (fs.map FieldSpec.db_field).Nodup →
      lookupK (fs.filterMap
          (fun g => (fieldGet doc g).map (fun v => (g.db_field, v)))) f.db_field
        = fieldGet doc f
  | [], f, hf, _ => by simp at hf
  | g :: t, f, hf, hnd => by
      have h1 : g.db_field ∉ t.map FieldSpec.db_field :=
        (List.nodup_cons.mp (by simpa using hnd)).1
      have h2 : (t.map FieldSpec.db_field).Nodup :=
        (List.nodup_cons.mp (by simpa using hnd)).2
      rcases List.mem_cons.mp hf with rfl | hft
      · cases hget : fieldGet doc f with
        | some v => simp [List.filterMap_cons, hget, lookupK]
        | none =>
            simp only [List.filterMap_cons, hget, Option.map_none']
            rw [lookupK_eq_none _ _
              (fun hmem => h1 ((keys_filterMapEnc_sublist doc t).subset hmem))]
      · have hne : g.db_field ≠ f.db_field := by
          intro he
          exact h1 (he ▸ List.mem_map_of_mem FieldSpec.db_field hft)
        cases hget : fieldGet doc g with
        | some v =>
            simp only [List.filterMap_cons, hget, Option.map_some', lookupK,
              if_neg hne]
            exact lookupK_filterMapEnc doc t f hft h2
        | none =>
            simp only [List.filterMap_cons, hget, Option.map_none']
            exact lookupK_filterMapEnc doc t f hft h2

theorem lookupK_filterMapEnc_inv (doc : DocInstance) :
    ∀ (fs : List FieldSpec) (k : String) (v : Value),
      lookupK (fs.filterMap
          (fun g => (fieldGet doc g).map (fun w => (g.db_field, w)))) k = some v →
      ∃ g, g ∈ fs ∧ g.db_field = k ∧ fieldGet doc g = some v
  | [], k, v, h => by simp [lookupK] at h
  | g :: t, k, v, h => by
      cases hget : fieldGet doc g with
      | some w =>
          rw [List.filterMap_cons, hget] at h
          simp only [Option.map_some'] at h
          by_cases hk : g.db_field = k
          · rw [lookupK, if_pos hk] at h
            cases h
            exact ⟨g, by simp, hk, hget⟩
          · rw [lookupK, if_neg hk] at h
            obtain ⟨x, hx, hxk, hxv⟩ := lookupK_filterMapEnc_inv doc t k v h
            exact ⟨x, by simp [hx], hxk, hxv⟩
      | none =>
          rw [List.filterMap_cons, hget] at h
          simp only [Option.map_none'] at h
          obtain ⟨x, hx, hxk, hxv⟩ := lookupK_filterMapEnc_inv doc t k v h
          exact ⟨x, by simp [hx], hxk, hxv⟩

theorem lookupK_encFields (doc : DocInstance)
    (H2 : (doc.cls.fields.map FieldSpec.db_field).Nodup)
    (f : FieldSpec) (hf : f ∈ doc.cls.fields) :
    lookupK (encFields doc) f.db_field = fieldGet doc f := by
  rw [encFields_eq doc H2]
  exact lookupK_filterMapEnc doc doc.cls.fields f hf H2

theorem lookupK_encFields_none (doc : DocInstance)
    (H2 : (doc.cls.fields.map FieldSpec.db_field).Nodup)
    (k : String) (hk : k ∉ doc.cls.fields.map FieldSpec.db_field) :
    lookupK (encFields doc) k = none := by
  rw [encFields_eq doc H2]
  apply lookupK_eq_none
  intro hmem
  exact hk ((keys_filterMapEnc_sublist doc doc.cls.fields).subset hmem)

theorem lookupK_encFields_inv (doc : DocInstance)
    (H2 : (doc.cls.fields.map FieldSpec.db_field).Nodup)
    (k : String) (v : Value) (h : lookupK (encFields doc) k = some v) :
    ∃ g, g ∈ doc.cls.fields ∧ g.db_field = k ∧ fieldGet doc g = some v := by
  rw [encFields_eq doc H2] at h
  exact lookupK_filterMapEnc_inv doc doc.cls.fields k v h

theorem encFields_no_null (doc : DocInstance)
    (H2 : (doc.cls.fields.map FieldSpec.db_field).Nodup)
    (H4 : ∀ f ∈ doc.cls.fields, fieldGet doc f ≠ some Value.vNull)
    (k : String) : lookupK (encFields doc) k ≠ some Value.vNull := by
  intro h
  obtain ⟨g, hg, _, hget⟩ := lookupK_encFields_inv doc H2 k Value.vNull h
  exact H4 g hg hget

theorem keys_encFields_sub (doc : DocInstance)
    (H2 : (doc.cls.fields.map FieldSpec.db_field).Nodup) :
    ∀ k ∈ (encFields doc).map Prod.fst, k ∈ doc.cls.fields.map FieldSpec.db_field := by
  intro k hk
  rw [encFields_eq doc H2] at hk
  exact (keys_filterMapEnc_sublist doc doc.cls.fields).subset hk

theorem keys_encFields_nodup (doc : DocInstance)
    (H2 : (doc.cls.fields.map FieldSpec.db_field).Nodup) :
    ((encFields doc).map Prod.fst).Nodup := by
  rw [encFields_eq doc H2]
  exact H2.sublist (keys_filterMapEnc_sublist doc doc.cls.fields)

/-! ### Characterizing the decode pipeline -/

theorem decodeLoop_writes :
    ∀ (fs : List FieldSpec) (d : List (String × Value)) (k : String),
      (∀ f ∈ fs, f.name ≠ k) → lookupK (decodeLoop fs d) k = lookupK d k
  | [], _, _, _ => rfl
  | f :: t, d, k, h => by
      have hf : f.name ≠ k := h f (by simp)
      have ht : ∀ g ∈ t, g.name ≠ k := fun g hg => h g (by simp [hg])
      cases hl : lookupK d f.db_field with
      | some v =>
          simp only [decodeLoop, hl]
          rw [decodeLoop_writes t _ k ht,
            lookupK_setK_ne f.name k v (fun hh => hf hh.symm) d]
      | none =>
          simp only [decodeLoop, hl]
          exact decodeLoop_writes t d k ht

theorem decodeLoop_spec :
    ∀ (fs : List FieldSpec) (d : List (String × Value)) (f : FieldSpec),
      f ∈ fs → (fs.map FieldSpec.name).Nodup →
      (∀ g ∈ fs, g.name = f.db_field → g = f) →
      lookupK (decodeLoop fs d) f.name
        = match lookupK d f.db_field with
          | some v => some v
          | none => lookupK d f.name
  | [], _, f, hf, _, _ => by simp at hf
  | g :: t, d, f, hf, hnd, hcross => by
      have h1 : g.name ∉ t.map FieldSpec.name :=
        (List.nodup_cons.mp (by simpa using hnd)).1
      have h2 : (t.map FieldSpec.name).Nodup :=
        (List.nodup_cons.mp (by simpa using hnd)).2
      rcases List.mem_cons.mp hf with rfl | hft
      · have hnames : ∀ x ∈ t, x.name ≠ f.name := by
          intro x hx hxe
          exact h1 (hxe ▸ List.mem_map_of_mem FieldSpec.name hx)
        cases hl : lookupK d f.db_field with
        | some v =>
            simp only [decodeLoop, hl]
            rw [decodeLoop_writes t _ f.name hnames, lookupK_setK_eq]
        | none =>
            simp only [decodeLoop, hl]
            exact decodeLoop_writes t d f.name hnames
      · have hgf : g ≠ f := by
          intro he
          exact h1 (he ▸ List.mem_map_of_mem FieldSpec.name hft)
        have hgdb : g.name ≠ f.db_field := by
          intro he
          exact hgf (hcross g (by simp) he)
        have hgname : g.name ≠ f.name := by
          intro he
          exact h1 (he ▸ List.mem_map_of_mem FieldSpec.name hft)
        have hcross' : ∀ x ∈ t, x.name = f.db_field → x = f :=
          fun x hx => hcross x (by simp [hx])
        cases hl : lookupK d g.db_field with
        | some v =>
            simp only [decodeLoop, hl]
            rw [decodeLoop_spec t _ f hft h2 hcross',
              lookupK_setK_ne g.name f.db_field v (fun hh => hgdb hh.symm) d,
              lookupK_setK_ne g.name f.name v (fun hh => hgname hh.symm) d]
        | none =>
            simp only [decodeLoop, hl]
            exact decodeLoop_spec t d f hft h2 hcross'

theorem decodeLoop_nodup :
    ∀ (fs : List FieldSpec) (d : List (String × Value)),
      (d.map Prod.fst).Nodup → ((decodeLoop fs d).map Prod.fst).Nodup
  | [], _, h => h
  | f :: t, d, h => by
      cases hl : lookupK d f.db_field with
      | some v =>
          simp only [decodeLoop, hl]
          exact decodeLoop_nodup t _ (keys_setK_nodup f.name v d h)
      | none =>
          simp only [decodeLoop, hl]
          exact decodeLoop_nodup t d h

theorem mkInstanceDataAux_lookup (fields : List FieldSpec) :
    ∀ (vals acc : List (String × Value)) (k : String),
      (∀ kv ∈ vals, kv.1 ∉ acc.map Prod.fst) →
      (vals.map Prod.fst).Nodup →
      lookupK (mkInstanceDataAux fields acc vals) k
        = match lookupK acc k with
          | some v => some v
          | none =>
              match lookupK vals k with
              | some v =>
                  if fields.any (fun f => f.name = k) ∧ v ≠ Value.vNull then
                    some v
                  else none
              | none => none
  | [], acc, k, _, _ => by
      cases h : lookupK acc k <;> simp [mkInstanceDataAux, h, lookupK]
  | (a, b) :: t, acc, k, hfresh, hnd => by
      have ha : a ∉ acc.map Prod.fst := hfresh (a, b) (by simp)
      have hat : a ∉ t.map Prod.fst := (List.nodup_cons.mp (by simpa using hnd)).1
      have hndt : (t.map Prod.fst).Nodup := (List.nodup_cons.mp (by simpa using hnd)).2
      by_cases hP : fields.any (fun f => f.name = a) ∧ b ≠ Value.vNull
      · have hstep : mkInstanceDataAux fields acc ((a, b) :: t)
            = mkInstanceDataAux fields (acc ++ [(a, b)]) t := by
          simp only [mkInstanceDataAux, if_pos hP, setK_fresh a b acc ha]
        rw [hstep, mkInstanceDataAux_lookup fields t (acc ++ [(a, b)]) k ?_ hndt]
        · by_cases hk : a = k
          · subst hk
            rw [lookupK_eq_none a acc ha]
            rw [lookupK_append a [(a, b)] acc]
            rw [lookupK_eq_none a acc ha]
            simp [lookupK, hP]
          · have hlk : lookupK (acc ++ [(a, b)]) k = lookupK acc k := by
              rw [lookupK_append k [(a, b)] acc]
              cases hc : lookupK acc k
              · simp [lookupK, hk]
              · rfl
            rw [hlk]
            cases hc : lookupK acc k
            · simp [lookupK, hk]
            · rfl
        · intro kv hkv
          simp only [List.map_append, List.mem_append, List.map_cons,
            List.map_nil, List.mem_singleton]
          rintro (hm | hm)
          · exact hfresh kv (by simp [hkv]) hm
          · exact hat (hm ▸ List.mem_map_of_mem Prod.fst hkv)
      · have hstep : mkInstanceDataAux fields acc ((a, b) :: t)
            = mkInstanceDataAux fields acc t := by
          simp only [mkInstanceDataAux, if_neg hP]
        rw [hstep, mkInstanceDataAux_lookup fields t acc k
          (fun kv hkv => hfresh kv (by simp [hkv])) hndt]
        by_cases hk : a = k
        · subst hk
          rw [lookupK_eq_none a acc ha]
          rw [lookupK_eq_none a t hat]
          have hcond : ¬((∃ x ∈ fields, x.name = a) ∧ ¬b = Value.vNull) := by
            intro hc
            obtain ⟨x, hx, he⟩ := hc.1
            exact hP ⟨List.any_eq_true.mpr ⟨x, hx, by simp [he]⟩, hc.2⟩
          simp [lookupK, hcond]
        · cases hc : lookupK acc k
          · simp [lookupK, hk]
          · rfl

theorem lookupK_mkInstanceData (fields : List FieldSpec)
    (vals : List (String × Value)) (k : String)
    (h : (vals.map Prod.fst).Nodup) :
    lookupK (mkInstanceData fields vals) k
      = match lookupK vals k with
        | some v =>
            if fields.any (fun f => f.name = k) ∧ v ≠ Value.vNull then some v
            else none
        | none => none := by
  unfold mkInstanceData
  rw [mkInstanceDataAux_lookup fields vals [] k (by simp) h]
  rfl

/-! ### C1: encode/decode round trip -/

theorem to_mongo_shape (doc : DocInstance)
    (H2 : (doc.cls.fields.map FieldSpec.db_field).Nodup)
    (H3 : ∀ f ∈ doc.cls.fields, f.db_field ≠ "_cls" ∧ f.db_field ≠ "_types")
    (H4 : ∀ f ∈ doc.cls.fields, fieldGet doc f ≠ some Value.vNull) :
    to_mongo doc
      = if doc.cls.allow_inheritance then
          encFields doc
            ++ [("_cls", Value.vStr doc.cls.class_name),
                ("_types", Value.vStrList
                  (doc.cls.superclassKeys ++ [doc.cls.class_name]))]
        else encFields doc := by
  have hclsK : "_cls" ∉ (encFields doc).map Prod.fst := by
    intro hm
    rcases List.mem_map.mp (keys_encFields_sub doc H2 _ hm) with ⟨g, hg, he⟩
    exact (H3 g hg).1 he
  have htypesK : "_types" ∉ (encFields doc).map Prod.fst := by
    intro hm
    rcases List.mem_map.mp (keys_encFields_sub doc H2 _ hm) with ⟨g, hg, he⟩
    exact (H3 g hg).2 he
  unfold to_mongo
  cases hai : doc.cls.allow_inheritance with
  | false =>
      simp only [Bool.false_eq_true, if_false]
      rw [if_neg (encFields_no_null doc H2 H4 "_id")]
  | true =>
      simp only [if_true]
      rw [setK_fresh "_cls" (Value.vStr doc.cls.class_name) (encFields doc) hclsK]
      have htypes2 : "_types" ∉
          ((encFields doc ++ [("_cls", Value.vStr doc.cls.class_name)]).map
            Prod.fst) := by
        intro hm
        rw [List.map_append] at hm
        rcases List.mem_append.mp hm with hm2 | hm2
        · exact htypesK hm2
        · simp only [List.map_cons, List.map_nil, List.mem_singleton] at hm2
          exact absurd hm2 (by decide)
      rw [setK_fresh "_types"
        (Value.vStrList (doc.cls.superclassKeys ++ [doc.cls.class_name])) _ htypes2]
      rw [List.append_assoc]
      have hid : lookupK
          (encFields doc
            ++ ([("_cls", Value.vStr doc.cls.class_name)]
                ++ [("_types", Value.vStrList
                    (doc.cls.superclassKeys ++ [doc.cls.class_name]))]))
          "_id" ≠ some Value.vNull := by
        rw [lookupK_append "_id" _ (encFields doc)]
        cases hc : lookupK (encFields doc) "_id" with
        | some v =>
            intro hcontra
            simp only at hcontra
            rw [hcontra] at hc
            exact encFields_no_null doc H2 H4 "_id" hc
        | none =>
            simp only [lookupK]
            rw [if_neg (by decide : ¬("_cls" = "_id")),
              if_neg (by decide : ¬("_types" = "_id"))]
            intro hcontra
            exact Option.noConfusion hcontra
      rw [if_neg hid]
      simp

theorem fromSon_none_cls (subs : List (String × DocClass)) (cls : DocClass)
    (son : List (String × Value)) (h : lookupK son "_cls" = none) :
    fromSon subs cls son
      = some (DocInstance.mk cls
          (mkInstanceData cls.fields
            (decodeLoop cls.fields (eraseK (eraseK son "_types") "_cls")))
          ((eraseK (eraseK son "_types") "_cls").map Prod.fst)) := by
  unfold fromSon
  rw [h]

theorem fromSon_own_cls (subs : List (String × DocClass)) (cls : DocClass)
    (son : List (String × Value))
    (h : lookupK son "_cls" = some (Value.vStr cls.class_name)) :
    fromSon subs cls son
      = some (DocInstance.mk cls
          (mkInstanceData cls.fields
            (decodeLoop cls.fields (eraseK (eraseK son "_types") "_cls")))
          ((eraseK (eraseK son "_types") "_cls").map Prod.fst)) := by
  unfold fromSon
  rw [h]
  simp

theorem roundtrip_fields (doc : DocInstance) (p : List String)
    (H1 : (doc.cls.fields.map FieldSpec.name).Nodup)
    (H2 : (doc.cls.fields.map FieldSpec.db_field).Nodup)
    (H4 : ∀ f ∈ doc.cls.fields, fieldGet doc f ≠ some Value.vNull)
    (H5 : ∀ f ∈ doc.cls.fields, ∀ g ∈ doc.cls.fields, g.db_field = f.name → g = f)
    (f : FieldSpec) (hf : f ∈ doc.cls.fields) :
    fieldGet (DocInstance.mk doc.cls
        (mkInstanceData doc.cls.fields
          (decodeLoop doc.cls.fields (encFields doc))) p) f
      = fieldGet doc f := by
  have hcross : ∀ g ∈ doc.cls.fields, g.name = f.db_field → g = f := by
    intro g hg he
    exact (H5 g hg f hf he.symm).symm
  have hD := decodeLoop_spec doc.cls.fields (encFields doc) f hf H1 hcross
  have hDnodup : ((decodeLoop doc.cls.fields (encFields doc)).map Prod.fst).Nodup :=
    decodeLoop_nodup doc.cls.fields (encFields doc) (keys_encFields_nodup doc H2)
  have hM := lookupK_mkInstanceData doc.cls.fields
    (decodeLoop doc.cls.fields (encFields doc)) f.name hDnodup
  cases hv : fieldGet doc f with
  | some v =>
      have henc : lookupK (encFields doc) f.db_field = some v := by
        rw [lookupK_encFields doc H2 f hf, hv]
      have hvnull : v ≠ Value.vNull := by
        intro he
        subst he
        exact H4 f hf hv
      have hDval : lookupK (decodeLoop doc.cls.fields (encFields doc)) f.name
          = some v := by
        rw [hD, henc]
      have hMval : lookupK (mkInstanceData doc.cls.fields
          (decodeLoop doc.cls.fields (encFields doc))) f.name = some v := by
        rw [hM, hDval]
        simp only
        rw [if_pos ⟨List.any_eq_true.mpr ⟨f, hf, by simp⟩, hvnull⟩]
      unfold fieldGet
      simp only
      rw [hMval]
  | none =>
      have henc : lookupK (encFields doc) f.db_field = none := by
        rw [lookupK_encFields doc H2 f hf, hv]
      have hencname : lookupK (encFields doc) f.name = none := by
        cases hw : lookupK (encFields doc) f.name with
        | none => rfl
        | some w =>
            obtain ⟨g, hg, hgk, hgv⟩ := lookupK_encFields_inv doc H2 f.name w hw
            have hgf : g = f := H5 f hf g hg hgk
            subst hgf
            rw [hgk] at henc
            rw [henc] at hw
            exact Option.noConfusion hw
      have hDval : lookupK (decodeLoop doc.cls.fields (encFields doc)) f.name
          = none := by
        rw [hD, henc, hencname]
      have hMval : lookupK (mkInstanceData doc.cls.fields
          (decodeLoop doc.cls.fields (encFields doc))) f.name = none := by
        rw [hM, hDval]
      have hdef : f.default = none := by
        unfold fieldGet at hv
        cases hl : lookupK doc.data f.name with
        | some w => rw [hl] at hv; exact Option.noConfusion hv
        | none => rw [hl] at hv; exact hv
      unfold fieldGet
      simp only
      rw [hMval, hdef]

/-- C1: encoding an instance through its own schema and decoding the record
back yields an instance of the same class that agrees with the original on
every field (as observed through the field descriptors; `present_fields`,
the resolver-cache side of the instance, is excluded).  The hypotheses are
the schema sanity conditions: distinct field names, distinct storage keys,
storage keys avoiding the reserved `_cls`/`_types` metadata keys, no stored
null values (Python `None` denotes absence, not a value), and no storage key
colliding with a *different* field's attribute name. -/
theorem claim_C1_roundtrip (subs : List (String × DocClass)) (doc : DocInstance)
    (H1 : (doc.cls.fields.map FieldSpec.name).Nodup)
    (H2 : (doc.cls.fields.map FieldSpec.db_field).Nodup)
    (H3 : ∀ f ∈ doc.cls.fields, f.db_field ≠ "_cls" ∧ f.db_field ≠ "_types")
    (H4 : ∀ f ∈ doc.cls.fields, fieldGet doc f ≠ some Value.vNull)
    (H5 : ∀ f ∈ doc.cls.fields, ∀ g ∈ doc.cls.fields, g.db_field = f.name → g = f) :
    ∃ dec, fromSon subs doc.cls (to_mongo doc) = some dec ∧ dec.cls = doc.cls ∧
      ∀ f ∈ doc.cls.fields, fieldGet dec f = fieldGet doc f := by
  have hclsK : "_cls" ∉ (encFields doc).map Prod.fst := by
    intro hm
    rcases List.mem_map.mp (keys_encFields_sub doc H2 _ hm) with ⟨g, hg, he⟩
    exact (H3 g hg).1 he
  have htypesK : "_types" ∉ (encFields doc).map Prod.fst := by
    intro hm
    rcases List.mem_map.mp (keys_encFields_sub doc H2 _ hm) with ⟨g, hg, he⟩
    exact (H3 g hg).2 he
  have hshape := to_mongo_shape doc H2 H3 H4
  cases hai : doc.cls.allow_inheritance with
  | false =>
      rw [hai] at hshape
      simp only [Bool.false_eq_true, if_false] at hshape
      have hstrip : eraseK (eraseK (encFields doc) "_types") "_cls"
          = encFields doc := by
        rw [eraseK_not_mem "_types" (encFields doc) htypesK,
          eraseK_not_mem "_cls" (encFields doc) hclsK]
      refine ⟨DocInstance.mk doc.cls
          (mkInstanceData doc.cls.fields
            (decodeLoop doc.cls.fields (encFields doc)))
          ((encFields doc).map Prod.fst), ?_, rfl, ?_⟩
      · rw [hshape, fromSon_none_cls subs doc.cls (encFields doc)
          (lookupK_eq_none "_cls" (encFields doc) hclsK), hstrip]
      · intro f hf
        exact roundtrip_fields doc _ H1 H2 H4 H5 f hf
  | true =>
      rw [hai] at hshape
      simp only [if_true] at hshape
      have hcls : lookupK (to_mongo doc) "_cls"
          = some (Value.vStr doc.cls.class_name) := by
        rw [hshape, lookupK_append "_cls" _ (encFields doc),
          lookupK_eq_none "_cls" (encFields doc) hclsK]
        simp [lookupK]
      have hmid : eraseK
          [("_cls", Value.vStr doc.cls.class_name),
           ("_types", Value.vStrList
             (doc.cls.superclassKeys ++ [doc.cls.class_name]))] "_types"
          = [("_cls", Value.vStr doc.cls.class_name)] := by
        unfold eraseK
        rw [if_neg (by decide : ¬("_cls" = "_types"))]
        unfold eraseK
        rw [if_pos rfl]
      have hstrip : eraseK (eraseK (to_mongo doc) "_types") "_cls"
          = encFields doc := by
        rw [hshape, eraseK_append_left "_types" _ (encFields doc) htypesK, hmid,
          eraseK_append_left "_cls" _ (encFields doc) hclsK]
        unfold eraseK
        rw [if_pos rfl]
        simp
      refine ⟨DocInstance.mk doc.cls
          (mkInstanceData doc.cls.fields
            (decodeLoop doc.cls.fields (encFields doc)))
          ((encFields doc).map Prod.fst), ?_, rfl, ?_⟩
      · rw [fromSon_own_cls subs doc.cls (to_mongo doc) hcls, hstrip]
      · intro f hf
        exact roundtrip_fields doc _ H1 H2 H4 H5 f hf

/-- C1 witness: a concrete populated `Person` instance round-trips. -/
theorem claim_C1_roundtrip_witness :
    ∃ dec, fromSon [] personDoc.cls (to_mongo personDoc) = some dec ∧
      dec.cls = personDoc.cls ∧
      ∀ f ∈ personDoc.cls.fields, fieldGet dec f = fieldGet personDoc f :=
  claim_C1_roundtrip [] personDoc (by decide) (by decide) (by decide) (by decide)
    (by decide)

/-! ### C4: the `_types` ancestor list -/

/-- Generic `_types` lookup: any polymorphic instance's encoded record holds
`_superclasses.keys() + [_class_name]` under `_types`. -/
theorem lookupK_types (doc : DocInstance)
    (h : doc.cls.allow_inheritance = true) :
    lookupK (to_mongo doc) "_types"
      = some (Value.vStrList (doc.cls.superclassKeys ++ [doc.cls.class_name])) := by
  unfold to_mongo
  rw [h]
  simp only [if_true]
  have htypes :
      lookupK (setK (setK (encFields doc) "_cls" (Value.vStr doc.cls.class_name))
        "_types" (Value.vStrList (doc.cls.superclassKeys ++ [doc.cls.class_name])))
        "_types"
      = some (Value.vStrList (doc.cls.superclassKeys ++ [doc.cls.class_name])) :=
    lookupK_setK_eq _ _ _
  by_cases hid :
      lookupK (setK (setK (encFields doc) "_cls" (Value.vStr doc.cls.class_name))
        "_types" (Value.vStrList (doc.cls.superclassKeys ++ [doc.cls.class_name])))
        "_id" = some Value.vNull
  · simp only [hid, if_true]
    rw [lookupK_eraseK_ne "_id" "_types" (by decide)]
    exact htypes
  · simp only [hid, if_false]
    exact htypes

/-- Every slot a probe sequence visits is below the table size 8. -/
theorem probeSeq_lt : ∀ (n i p : Nat), ∀ s ∈ probeSeq n i p, s < 8
  | 0, _, _ => by simp [probeSeq]
  | n + 1, i, p => by
      intro s hs
      rw [probeSeq] at hs
      rcases List.mem_cons.mp hs with h | h
      · subst h; exact Nat.mod_lt _ (by omega)
      · exact probeSeq_lt n _ _ s h

/-- Writing a key into a free slot adds exactly that key to the stored-key
list, up to permutation. -/
theorem filterMap_id_set_perm :
    ∀ (t : List (Option String)) (s : Nat) (k : String), s < t.length →
      t.getD s none = none →
      List.Perm ((t.set s (some k)).filterMap id) (k :: t.filterMap id)
  | [], _, _, h, _ => absurd h (by simp)
  | o :: rest, 0, k, _, h0 => by
      have ho : o = none := by simpa using h0
      subst ho
      show List.Perm ((some k :: rest).filterMap id)
        (k :: (none :: rest).filterMap id)
      simp only [List.filterMap_cons, id_eq]
      exact List.Perm.refl _
  | o :: rest, s + 1, k, h, h0 => by
      have h' : s < rest.length := by simpa using h
      have h0' : rest.getD s none = none := by simpa using h0
      have ih := filterMap_id_set_perm rest s k h' h0'
      show List.Perm ((o :: rest.set s (some k)).filterMap id)
        (k :: (o :: rest).filterMap id)
      cases o with
      | none =>
          simp only [List.filterMap_cons, id_eq]
          exact ih
      | some a =>
          simp only [List.filterMap_cons, id_eq]
          exact (ih.cons a).trans (List.Perm.swap k a _)

/-- A successful `pyInsert` permutes the key list to `k ::` old keys. -/
theorem pyInsert_perm (t : PyTable) (k : String) (t2 : PyTable)
    (hlen : t.length = 8) (h : pyInsert t k = some t2) :
    List.Perm (dictKeys t2) (k :: dictKeys t) := by
  unfold pyInsert at h
  cases hf : (probeSeq 64 (pyHash k % 8) (pyHash k)).find?
      (fun s => (t.getD s none).isNone) with
  | none => rw [hf] at h; exact Option.noConfusion h
  | some s =>
      rw [hf] at h
      have hs : s < 8 := probeSeq_lt 64 _ _ s (List.mem_of_find?_eq_some hf)
      have hpred := List.find?_some hf
      have hnone : t.getD s none = none := by simpa using hpred
      have ht2 : t2 = t.set s (some k) := by
        injection h with h'; exact h'.symm
      rw [ht2]
      exact filterMap_id_set_perm t s k (by omega) hnone

/-- `pyInsert` preserves the table size. -/
theorem pyInsert_length (t : PyTable) (k : String) (t2 : PyTable)
    (h : pyInsert t k = some t2) : t2.length = t.length := by
  unfold pyInsert at h
  cases hf : (probeSeq 64 (pyHash k % 8) (pyHash k)).find?
      (fun s => (t.getD s none).isNone) with
  | none => rw [hf] at h; exact Option.noConfusion h
  | some s =>
      rw [hf] at h
      injection h with h'
      rw [← h', List.length_set]

/-- A successful bulk insert yields a key list that is a permutation of the
inserted keys prepended to the old ones. -/
theorem pyInsertAll_perm :
    ∀ (ks : List String) (t t2 : PyTable), t.length = 8 →
      pyInsertAll t ks = some t2 →
      List.Perm (dictKeys t2) (ks ++ dictKeys t)
  | [], t, t2, _, h => by
      rw [pyInsertAll] at h
      injection h with h'
      rw [← h']
      exact List.Perm.refl _
  | k :: ks, t, t2, hlen, h => by
      rw [pyInsertAll] at h
      cases hi : pyInsert t k with
      | none => rw [hi] at h; exact Option.noConfusion h
      | some tm =>
          rw [hi] at h
          have hlm : tm.length = 8 := by rw [pyInsert_length t k tm hi, hlen]
          have ih := pyInsertAll_perm ks tm t2 hlm h
          have hm := pyInsert_perm t k tm hlen hi
          exact ih.trans ((hm.append_left ks).trans List.perm_middle)

/-- C4 (counterexample): for the registered chain `Animal → Mammal → Dog`,
the encoded `_types` of a `Dog` instance is
`["Animal.Mammal", "Animal", "Animal.Mammal.Dog"]`: the superclasses dict's
`keys()` comes out in CPython 2 hash-slot order — `'Animal.Mammal'` hashes to
slot 0 and `'Animal'` to slot 6 — so the leaf-ward ancestor precedes the root
here, which is not the root-to-leaf order
`["Animal", "Animal.Mammal", "Animal.Mammal.Dog"]` the claim requires. -/
theorem claim_C4_counterexample :
    lookupK (to_mongo dogInstance) "_types"
      = some (Value.vStrList ["Animal.Mammal", "Animal", "Animal.Mammal.Dog"])
    ∧ Value.vStrList ["Animal.Mammal", "Animal", "Animal.Mammal.Dog"]
      ≠ Value.vStrList ["Animal", "Animal.Mammal", "Animal.Mammal.Dog"] := by
  decide

/-- C4 (amended): for every subclass the metaclass builds (the superclass
dict insertion not overflowing the modelled 8-slot table, which no chain that
avoids CPython's resize can), the encoded record's `_types` value is the
superclasses dict's `keys()` sequence followed by the instance's own
qualified name: the own name is last, and the ancestors are exactly — as a
permutation — the direct base's qualified name together with the base's own
superclass keys; their relative order is the Python 2 hash-table slot order,
which is neither insertion order nor root-to-leaf in general. -/
theorem claim_C4_amended (base : DocClass) (name : String)
    (own : List FieldSpec) (data : List (String × Value)) (pf : List String)
    (t : PyTable)
    (hins : pyInsertAll emptyTable (base.class_name :: base.superclassKeys)
      = some t) :
    lookupK (to_mongo (DocInstance.mk (mkSubClass name base own) data pf))
        "_types"
      = some (Value.vStrList ((mkSubClass name base own).superclassKeys
          ++ [(mkSubClass name base own).class_name]))
    ∧ List.Perm (mkSubClass name base own).superclassKeys
        (base.class_name :: base.superclassKeys) := by
  constructor
  · exact lookupK_types (DocInstance.mk (mkSubClass name base own) data pf) rfl
  · have hp := pyInsertAll_perm (base.class_name :: base.superclassKeys)
      emptyTable t rfl hins
    have h0 : dictKeys emptyTable = [] := rfl
    rw [h0, List.append_nil] at hp
    have hk : (mkSubClass name base own).superclassKeys = dictKeys t := by
      simp only [mkSubClass]
      rw [hins]
    rw [hk]
    exact hp

/-- C4 amended witness: the `Dog` subclass of `Animal.Mammal`; the concrete
table has `'Animal.Mammal'` in slot 0 and `'Animal'` in slot 6. -/
theorem claim_C4_amended_witness :
    lookupK (to_mongo (DocInstance.mk (mkSubClass "Dog" mammalClass []) [] []))
        "_types"
      = some (Value.vStrList ((mkSubClass "Dog" mammalClass []).superclassKeys
          ++ [(mkSubClass "Dog" mammalClass []).class_name]))
    ∧ List.Perm (mkSubClass "Dog" mammalClass []).superclassKeys
        (mammalClass.class_name :: mammalClass.superclassKeys) :=
  claim_C4_amended mammalClass "Dog" [] [] []
    [some "Animal.Mammal", none, none, none, none, none, some "Animal", none]
    (by decide)

/-! ### C8: polymorphic decode fallback -/

/-- C8: when the raw record's discriminator names a class that is neither the
requested class nor one of its registered descendants, `_from_son` returns
`none` (absent) rather than raising. -/
theorem claim_C8_decode_fallback (subclasses : List (String × DocClass))
    (cls : DocClass) (son : List (String × Value)) (s : String)
    (hcls : lookupK son "_cls" = some (Value.vStr s))
    (hne : s ≠ cls.class_name)
    (hmiss : subclasses.find? (fun p => p.1 = s) = none) :
    fromSon subclasses cls son = none := by
  unfold fromSon
  rw [hcls]
  simp [hne, hmiss]

/-- C8 witness: a record tagged `Animal.Reptile` decoded against `Animal`
with only `Mammal`/`Dog` registered as descendants. -/
theorem claim_C8_decode_fallback_witness :
    fromSon [("Animal.Mammal", mammalClass), ("Animal.Mammal.Dog", dogClass)]
      animalClass [("_cls", Value.vStr "Animal.Reptile")] = none :=
  claim_C8_decode_fallback _ _ _ "Animal.Reptile" (by decide) (by decide)
    (by decide)

/-! ### C9: `present_fields` and metadata stripping -/

/-- C9 (counterexample): decoding a record that carries `_cls` and `_types`
produces `present_fields = ["name"]` — the discriminator and ancestor-list
keys are stripped *before* the keys are recorded, contrary to the claim that
they are included. -/
theorem claim_C9_counterexample :
    (fromSon [] personClass
        [("_cls", Value.vStr "Person"),
         ("_types", Value.vStrList ["Person"]),
         ("name", Value.vStr "a")]).map DocInstance.present_fields
      = some ["name"]
    ∧ "_cls" ∉ (["name"] : List String)
    ∧ "_types" ∉ (["name"] : List String) := by
  decide

/-- C9 (amended): for every raw record successfully decoded, the instance's
`present_fields` is the record's key list *after* stripping the `_types` and
`_cls` metadata keys (so it never includes them). -/
theorem claim_C9_amended (subclasses : List (String × DocClass))
    (cls : DocClass) (son : List (String × Value)) (inst : DocInstance)
    (h : fromSon subclasses cls son = some inst) :
    inst.present_fields = (eraseK (eraseK son "_types") "_cls").map Prod.fst := by
  unfold fromSon at h
  cases hcls : lookupK son "_cls" with
  | none =>
      rw [hcls] at h
      cases h
      rfl
  | some v =>
      rw [hcls] at h
      cases v with
      | vStr s =>
          by_cases hs : s = cls.class_name
          · simp only [hs, if_true] at h
            cases h
            rfl
          · simp only [hs, if_false] at h
            cases hfind : (List.find? (fun p => p.1 = s) subclasses).map Prod.snd with
            | none => rw [hfind] at h; cases h
            | some c =>
                rw [hfind] at h
                cases h
                rfl
      | vNull => cases h
      | vInt n => cases h
      | vStrList l => cases h

/-- C9 amended witness: the concrete record of the counterexample. -/
theorem claim_C9_amended_witness :
    ({ cls := personClass,
       data := [("name", Value.vStr "a")],
       present_fields := ["name"] } : DocInstance).present_fields
      = (eraseK (eraseK
          [("_cls", Value.vStr "Person"),
           ("_types", Value.vStrList ["Person"]),
           ("name", Value.vStr "a")] "_types") "_cls").map Prod.fst :=
  claim_C9_amended [] personClass _ _ (by decide)

/-! ### C10: document equality -/

/-- C10: `__eq__` consults only class membership and the primary-key value:
whenever `b` is an instance of `a`'s class and the primary keys compare equal,
`a == b` is true — regardless of every other field value. -/
theorem claim_C10_eq_pk_only (a b : DocInstance)
    (hinst : instanceOf b a.cls = true) (hid : idOf a = idOf b) :
    docEq a b = true := by
  unfold docEq
  simp [hinst, hid]

/-! ### C2: reference wire shape in container encode -/

theorem complexToMongo_get? (items : List CItem) (ws : List Wire)
    (h : complexToMongo items = Except.ok ws) (k : ℕ) (it : CItem)
    (hk : items.get? k = some it) :
    ∃ w, complexItemToMongo it = Except.ok w ∧ ws.get? k = some w := by
  induction items generalizing k ws with
  | nil => simp at hk
  | cons hd t ih =>
      unfold complexToMongo at h
      cases hhd : complexItemToMongo hd with
      | error e => rw [hhd] at h; cases h
      | ok w =>
          rw [hhd] at h
          cases ht : complexToMongo t with
          | error e => rw [ht] at h; cases h
          | ok tw =>
              rw [ht] at h
              cases h
              cases k with
              | zero =>
                  simp at hk
                  subst hk
                  exact ⟨w, hhd, rfl⟩
              | succ n =>
                  simp only [List.get?] at hk ⊢
                  exact ih tw ht n hk

/-- C2 (counterexample): a container encoding a saved document whose schema
*permits* polymorphism produces a *direct* reference (`DBRef`), not the
generic sub-record the claim requires in that case. -/
theorem claim_C2_counterexample :
    complexToMongo [CItem.doc savedPerson]
      = Except.ok [Wire.dbref "person" (Value.vInt 1)]
    ∧ Wire.isGeneric (Wire.dbref "person" (Value.vInt 1)) = false :=
  ⟨rfl, rfl⟩

/-- C2 (amended): when a container field encodes a referenced document with a
non-absent identifier, the wire shape is a *generic* reference exactly when
the referenced schema does **not** permit polymorphism
(`allow_inheritance = False` — such a record carries no `_cls` of its own, so
the reference must), and a *direct* `DBRef(collection, id)` when it does. -/
theorem claim_C2_amended (items : List CItem) (ws : List Wire)
    (d : RefTarget) (pk : Value) (k : ℕ)
    (hok : complexToMongo items = Except.ok ws)
    (hk : items.get? k = some (CItem.doc d))
    (hpk : d.pk = some pk) :
    ws.get? k = some (if d.allow_inheritance then Wire.dbref d.collection pk
                      else Wire.genericRef d.class_name d.collection pk) := by
  obtain ⟨p, c, cn, ai⟩ := d
  simp only at hpk
  subst hpk
  dsimp only
  obtain ⟨w, hw, hws⟩ := complexToMongo_get? items ws hok k _ hk
  simp only [complexItemToMongo, genericReferenceToMongo] at hw
  cases ai with
  | false =>
      rw [if_pos rfl] at hw
      rw [if_neg (by decide)]
      cases hw
      exact hws
  | true =>
      rw [if_neg (by decide)] at hw
      rw [if_pos rfl]
      cases hw
      exact hws

/-- C2 amended witness: a polymorphic target encodes as a direct `DBRef`, a
sealed (`allow_inheritance = False`) target as a generic reference. -/
theorem claim_C2_amended_witness :
    ([Wire.dbref "person" (Value.vInt 1),
      Wire.genericRef "Sealed" "sealed" (Value.vInt 2)] : List Wire).get? 1
      = some (if savedSealed.allow_inheritance
              then Wire.dbref savedSealed.collection (Value.vInt 2)
              else Wire.genericRef savedSealed.class_name savedSealed.collection
                     (Value.vInt 2)) :=
  claim_C2_amended [CItem.doc savedPerson, CItem.doc savedSealed]
    [Wire.dbref "person" (Value.vInt 1),
     Wire.genericRef "Sealed" "sealed" (Value.vInt 2)]
    savedSealed (Value.vInt 2) 1 rfl rfl rfl

/-- C10 witness: two freshly constructed, unsaved `Person` instances whose
`name` fields differ (and whose identifiers are both absent) compare equal. -/
theorem claim_C10_eq_pk_only_witness :
    docEq { cls := personClass, data := [("name", Value.vStr "a")] }
          { cls := personClass, data := [("name", Value.vStr "b")] } = true :=
  claim_C10_eq_pk_only _ _ (by decide) (by decide)

/-! ### C5/C6: the reference resolver -/

theorem isDbrefTo_eq {c : String} {it : RItem} (h : isDbrefTo c it = true) :
    ∃ i, it = RItem.dbref c i := by
  cases it with
  | dbref c' i =>
      simp only [isDbrefTo, decide_eq_true_eq] at h
      exact ⟨i, by rw [h]⟩
  | gref cls i => simp [isDbrefTo] at h
  | resolved a b i => simp [isDbrefTo] at h
  | plain v => simp [isDbrefTo] at h

theorem buildCols_all_dbref (reg : List (String × String)) (c : String) :
    ∀ (items : List RItem) (k : Nat) (es : List (Nat × RItem)),
      (∀ it ∈ items, isDbrefTo c it = true) →
      buildCols reg items k [(c, es)]
        = Except.ok [(c, es ++ enumItems k items)]
  | [], k, es, _ => by simp [buildCols, enumItems]
  | it :: t, k, es, hall => by
      obtain ⟨i, rfl⟩ := isDbrefTo_eq (hall it (by simp))
      have hadd : addEntry [(c, es)] c (k, RItem.dbref c i)
          = [(c, es ++ [(k, RItem.dbref c i)])] := by
        simp [addEntry]
      rw [buildCols, hadd,
        buildCols_all_dbref reg c t (k + 1) (es ++ [(k, RItem.dbref c i)])
          (fun x hx => hall x (by simp [hx]))]
      simp [enumItems]

theorem buildCols_all (reg : List (String × String)) (c : String)
    (items : List RItem) (hall : ∀ it ∈ items, isDbrefTo c it = true)
    (hne : items ≠ []) :
    buildCols reg items 0 [] = Except.ok [(c, enumItems 0 items)] := by
  cases items with
  | nil => exact absurd rfl hne
  | cons it t =>
      obtain ⟨i, rfl⟩ := isDbrefTo_eq (hall it (by simp))
      have hadd : addEntry [] c (0, RItem.dbref c i)
          = [(c, [(0, RItem.dbref c i)])] := by
        simp [addEntry]
      rw [buildCols, hadd,
        buildCols_all_dbref reg c t 1 [(0, RItem.dbref c i)]
          (fun x hx => hall x (by simp [hx]))]
      simp [enumItems]

theorem idmOf_keys : ∀ (k : Nat) (items : List RItem),
    (idmOf k items).map Prod.fst = dbrefIds items
  | _, [] => rfl
  | k, .dbref c i :: t => by simp [idmOf, dbrefIds, idmOf_keys (k + 1) t]
  | k, .gref cls i :: t => by simp [idmOf, dbrefIds, idmOf_keys (k + 1) t]
  | k, .resolved a b i :: t => by simp [idmOf, dbrefIds, idmOf_keys (k + 1) t]
  | k, .plain v :: t => by simp [idmOf, dbrefIds, idmOf_keys (k + 1) t]

theorem setIdm_fresh (i : Int) (p : Nat × Option String) :
    ∀ m : List (Int × (Nat × Option String)), i ∉ m.map Prod.fst →
      setIdm m i p = m ++ [(i, p)]
  | [], _ => rfl
  | (a, b) :: t, h => by
      have ha : a ≠ i := fun hh => h (by simp [hh])
      have ht : i ∉ t.map Prod.fst := fun hh => h (by simp [hh])
      simp [setIdm, ha, setIdm_fresh i p t ht]

theorem buildIdMap_eq (c : String) :
    ∀ (items : List RItem) (k : Nat) (m : List (Int × (Nat × Option String))),
      (∀ it ∈ items, isDbrefTo c it = true) →
      (dbrefIds items).Nodup →
      (∀ i ∈ dbrefIds items, i ∉ m.map Prod.fst) →
      buildIdMap (enumItems k items) m = m ++ idmOf k items
  | [], k, m, _, _, _ => by simp [enumItems, buildIdMap, idmOf]
  | it :: t, k, m, hall, hnd, hfresh => by
      obtain ⟨i, rfl⟩ := isDbrefTo_eq (hall it (by simp))
      have hobs : dbrefIds (RItem.dbref c i :: t) = i :: dbrefIds t := rfl
      rw [hobs] at hnd hfresh
      have hifresh : i ∉ m.map Prod.fst := hfresh i (by simp)
      have hndt : (dbrefIds t).Nodup := (List.nodup_cons.mp hnd).2
      have hit : i ∉ dbrefIds t := (List.nodup_cons.mp hnd).1
      have hstep : buildIdMap (enumItems k (RItem.dbref c i :: t)) m
          = buildIdMap (enumItems (k + 1) t) (setIdm m i (k, none)) := by
        simp [enumItems, buildIdMap]
      rw [hstep, setIdm_fresh i (k, none) m hifresh,
        buildIdMap_eq c t (k + 1) (m ++ [(i, (k, none))])
          (fun x hx => hall x (by simp [hx])) hndt ?_]
      · simp [idmOf]
      · intro j hj
        simp only [List.map_append, List.mem_append, List.map_cons,
          List.map_nil, List.mem_singleton]
        rintro (hm | hm)
        · exact hfresh j (by simp [hj]) hm
        · exact hit (hm ▸ hj)

theorem mem_dbrefIds_of_getElem? :
    ∀ (items : List RItem) (n : Nat) (c : String) (i : Int),
      items[n]? = some (RItem.dbref c i) → i ∈ dbrefIds items
  | [], n, c, i, h => by simp at h
  | it :: t, 0, c, i, h => by
      simp only [List.getElem?_cons_zero, Option.some.injEq] at h
      subst h
      simp [dbrefIds]
  | it :: t, n + 1, c, i, h => by
      simp only [List.getElem?_cons_succ] at h
      have := mem_dbrefIds_of_getElem? t n c i h
      cases it with
      | dbref c' j => simp [dbrefIds, this]
      | gref cls j => simpa [dbrefIds] using this
      | resolved a b j => simpa [dbrefIds] using this
      | plain v => simpa [dbrefIds] using this

theorem idmOf_lookup (c : String) :
    ∀ (k0 : Nat) (items : List RItem) (n : Nat) (i : Int),
      (∀ it ∈ items, isDbrefTo c it = true) →
      (dbrefIds items).Nodup →
      items[n]? = some (RItem.dbref c i) →
      lookupIdm (idmOf k0 items) i = some (k0 + n, none)
  | k0, [], n, i, _, _, h => by simp at h
  | k0, it :: t, n, i, hall, hnd, h => by
      obtain ⟨j, rfl⟩ := isDbrefTo_eq (hall it (by simp))
      have hobs : dbrefIds (RItem.dbref c j :: t) = j :: dbrefIds t := rfl
      rw [hobs] at hnd
      cases n with
      | zero =>
          simp only [List.getElem?_cons_zero, Option.some.injEq,
            RItem.dbref.injEq] at h
          obtain ⟨-, rfl⟩ := h
          simp [idmOf, lookupIdm]
      | succ m =>
          simp only [List.getElem?_cons_succ] at h
          have hmem : i ∈ dbrefIds t := mem_dbrefIds_of_getElem? t m c i h
          have hji : j ≠ i := by
            intro he
            exact (List.nodup_cons.mp hnd).1 (he ▸ hmem)
          have := idmOf_lookup c (k0 + 1) t m i
            (fun x hx => hall x (by simp [hx])) (List.nodup_cons.mp hnd).2 h
          simp only [idmOf, lookupIdm, if_neg hji]
          rw [this]
          have harith : k0 + 1 + m = k0 + (m + 1) := by omega
          rw [harith]

theorem idmOf_inv :
    ∀ (k0 : Nat) (items : List RItem) (j : Int) (p : Nat × Option String),
      lookupIdm (idmOf k0 items) j = some p →
      ∃ n c2, items[n]? = some (RItem.dbref c2 j) ∧ p.1 = k0 + n
  | k0, [], j, p, h => by simp [idmOf, lookupIdm] at h
  | k0, .dbref c i :: t, j, p, h => by
      simp only [idmOf, lookupIdm] at h
      by_cases hij : i = j
      · rw [if_pos hij] at h
        cases h
        exact ⟨0, c, by simp [hij], by simp⟩
      · rw [if_neg hij] at h
        obtain ⟨n, c2, hn, hp⟩ := idmOf_inv (k0 + 1) t j p h
        exact ⟨n + 1, c2, by simpa using hn, by omega⟩
  | k0, .gref cls i :: t, j, p, h => by
      simp only [idmOf] at h
      obtain ⟨n, c2, hn, hp⟩ := idmOf_inv (k0 + 1) t j p h
      exact ⟨n + 1, c2, by simpa using hn, by omega⟩
  | k0, .resolved a b i :: t, j, p, h => by
      simp only [idmOf] at h
      obtain ⟨n, c2, hn, hp⟩ := idmOf_inv (k0 + 1) t j p h
      exact ⟨n + 1, c2, by simpa using hn, by omega⟩
  | k0, .plain v :: t, j, p, h => by
      simp only [idmOf] at h
      obtain ⟨n, c2, hn, hp⟩ := idmOf_inv (k0 + 1) t j p h
      exact ⟨n + 1, c2, by simpa using hn, by omega⟩

theorem spliceFound_spec (reg : List (String × String)) (coll : String)
    (idm : List (Int × (Nat × Option String))) :
    ∀ (found : List StoreRec) (dbref : List RItem),
      (∀ r ∈ found, ∀ k, lookupIdm idm r.id = some (k, none) →
        (lookupReg reg r.cls).isSome = true) →
      ∃ out, spliceFound reg coll idm found dbref = Except.ok out
        ∧ out.length = dbref.length
        ∧ (∀ k : Nat, ¬hitsPos found idm k → out[k]? = dbref[k]?)
        ∧ (∀ k : Nat, hitsPos found idm k → k < dbref.length →
            ∃ cls i2, out[k]? = some (RItem.resolved cls coll i2))
  | [], dbref, _ =>
      ⟨dbref, rfl, rfl, fun _ _ => rfl,
        fun k hk _ => absurd hk (by simp [hitsPos])⟩
  | r :: t, dbref, hreg => by
      cases hl : lookupIdm idm r.id with
      | none =>
          obtain ⟨out, heq, hlen, hunhit, hhit⟩ :=
            spliceFound_spec reg coll idm t dbref
              (fun x hx => hreg x (by simp [hx]))
          refine ⟨out, ?_, hlen, ?_, ?_⟩
          · simp only [spliceFound, hl]
            exact heq
          · intro k hk
            apply hunhit
            rintro ⟨r', hr', ocls, hlk⟩
            exact hk ⟨r', by simp [hr'], ocls, hlk⟩
          · intro k hk hklt
            obtain ⟨r', hr', ocls, hlk⟩ := hk
            rcases List.mem_cons.mp hr' with rfl | hrt
            · rw [hl] at hlk
              exact Option.noConfusion hlk
            · exact hhit k ⟨r', hrt, ocls, hlk⟩ hklt
      | some p =>
          obtain ⟨k0, ocls⟩ := p
          cases ocls with
          | some cls =>
              obtain ⟨out, heq, hlen, hunhit, hhit⟩ :=
                spliceFound_spec reg coll idm t
                  (dbref.set k0 (RItem.resolved cls coll r.id))
                  (fun x hx => hreg x (by simp [hx]))
              refine ⟨out, ?_, by rw [hlen]; simp, ?_, ?_⟩
              · simp only [spliceFound, hl]
                exact heq
              · intro k hk
                have hkk0 : k ≠ k0 := by
                  intro he
                  exact hk ⟨r, by simp, some cls, by rw [hl, he]⟩
                have hnt : ¬hitsPos t idm k := by
                  rintro ⟨r', hr', o, hlk⟩
                  exact hk ⟨r', by simp [hr'], o, hlk⟩
                rw [hunhit k hnt]
                exact List.getElem?_set_ne (fun he => hkk0 he.symm)
              · intro k hk hklt
                by_cases hth : hitsPos t idm k
                · exact hhit k hth (by simpa using hklt)
                · by_cases hkk0 : k = k0
                  · subst hkk0
                    rw [hunhit k hth]
                    exact ⟨cls, r.id, List.getElem?_set_self hklt⟩
                  · exfalso
                    obtain ⟨r', hr', o, hlk⟩ := hk
                    rcases List.mem_cons.mp hr' with rfl | hrt
                    · rw [hl] at hlk
                      simp only [Option.some.injEq, Prod.mk.injEq] at hlk
                      exact hkk0 hlk.1.symm
                    · exact hth ⟨r', hrt, o, hlk⟩
          | none =>
              have hsome := hreg r (by simp) k0 hl
              cases hreglk : lookupReg reg r.cls with
              | none => rw [hreglk] at hsome; simp at hsome
              | some col =>
                  obtain ⟨out, heq, hlen, hunhit, hhit⟩ :=
                    spliceFound_spec reg coll idm t
                      (dbref.set k0 (RItem.resolved r.cls coll r.id))
                      (fun x hx => hreg x (by simp [hx]))
                  refine ⟨out, ?_, by rw [hlen]; simp, ?_, ?_⟩
                  · simp only [spliceFound, hl, hreglk]
                    exact heq
                  · intro k hk
                    have hkk0 : k ≠ k0 := by
                      intro he
                      exact hk ⟨r, by simp, none, by rw [hl, he]⟩
                    have hnt : ¬hitsPos t idm k := by
                      rintro ⟨r', hr', o, hlk⟩
                      exact hk ⟨r', by simp [hr'], o, hlk⟩
                    rw [hunhit k hnt]
                    exact List.getElem?_set_ne (fun he => hkk0 he.symm)
                  · intro k hk hklt
                    by_cases hth : hitsPos t idm k
                    · exact hhit k hth (by simpa using hklt)
                    · by_cases hkk0 : k = k0
                      · subst hkk0
                        rw [hunhit k hth]
                        exact ⟨r.cls, r.id, List.getElem?_set_self hklt⟩
                      · exfalso
                        obtain ⟨r', hr', o, hlk⟩ := hk
                        rcases List.mem_cons.mp hr' with rfl | hrt
                        · rw [hl] at hlk
                          simp only [Option.some.injEq, Prod.mk.injEq] at hlk
                          exact hkk0 hlk.1.symm
                        · exact hth ⟨r', hrt, o, hlk⟩

theorem buildCols_no_refs (reg : List (String × String)) :
    ∀ (items : List RItem) (k : Nat)
      (acc : List (String × List (Nat × RItem))),
      (∀ it ∈ items, isRef it = false) →
      buildCols reg items k acc = Except.ok acc
  | [], _, acc, _ => rfl
  | .dbref c i :: t, k, acc, h =>
      absurd (h (RItem.dbref c i) (by simp)) (by simp [isRef])
  | .gref cls i :: t, k, acc, h =>
      absurd (h (RItem.gref cls i) (by simp)) (by simp [isRef])
  | .resolved a b i :: t, k, acc, h => by
      simp only [buildCols]
      exact buildCols_no_refs reg t (k + 1) acc (fun x hx => h x (by simp [hx]))
  | .plain v :: t, k, acc, h => by
      simp only [buildCols]
      exact buildCols_no_refs reg t (k + 1) acc (fun x hx => h x (by simp [hx]))

/-- C5: on first access, a container of direct references into one target
collection `c` triggers exactly one batched query, against `c`, covering
every referenced identifier; and when every identifier resolves, accessing
the cached resolved container again issues no query at all. -/
theorem claim_C5_batching (reg : List (String × String)) (db : List StoreRec)
    (items : List RItem) (c : String)
    (hall : ∀ it ∈ items, isDbrefTo c it = true)
    (hne : items ≠ [])
    (hnd : (dbrefIds items).Nodup)
    (hreg : ∀ r ∈ db, (lookupReg reg r.cls).isSome = true)
    (hfound : ∀ i ∈ dbrefIds items, ∃ r ∈ db, r.coll = c ∧ r.id = i) :
    ∃ out,
      derefResolve reg db items
        = Except.ok (out, [Query.mk c (dbrefIds items)])
      ∧ derefResolve reg db out = Except.ok (out, []) := by
  have hcols := buildCols_all reg c items hall hne
  have hidm : buildIdMap (enumItems 0 items) [] = idmOf 0 items := by
    simpa using buildIdMap_eq c items 0 [] hall hnd (by simp)
  have hids : (idmOf 0 items).map Prod.fst = dbrefIds items := idmOf_keys 0 items
  obtain ⟨out, heq, hlen, hunhit, hhit⟩ :=
    spliceFound_spec reg c (idmOf 0 items)
      (db.filter (fun r =>
        decide (r.coll = c ∧ r.id ∈ (idmOf 0 items).map Prod.fst)))
      items (fun r hr _ _ => hreg r (List.mem_of_mem_filter hr))
  have hres : derefResolve reg db items
      = Except.ok (out, [Query.mk c (dbrefIds items)]) := by
    unfold derefResolve
    rw [hcols]
    simp only [derefStep]
    rw [hidm, heq, hids]
  have hresk : ∀ k, k < items.length →
      ∃ cls i2, out[k]? = some (RItem.resolved cls c i2) := by
    intro k hk
    obtain ⟨it, hit⟩ : ∃ it, items[k]? = some it :=
      ⟨_, List.getElem?_eq_getElem hk⟩
    have hmemit : it ∈ items := List.mem_iff_getElem?.mpr ⟨k, hit⟩
    obtain ⟨i, rfl⟩ := isDbrefTo_eq (hall it hmemit)
    have hmem : i ∈ dbrefIds items := mem_dbrefIds_of_getElem? items k c i hit
    obtain ⟨r, hrdb, hrc, hri⟩ := hfound i hmem
    have hrfound : r ∈ db.filter (fun r =>
        decide (r.coll = c ∧ r.id ∈ (idmOf 0 items).map Prod.fst)) := by
      refine List.mem_filter.mpr ⟨hrdb, ?_⟩
      rw [decide_eq_true_iff]
      exact ⟨hrc, by rw [hri, hids]; exact hmem⟩
    have hlk : lookupIdm (idmOf 0 items) r.id = some (k, none) := by
      rw [hri]
      simpa using idmOf_lookup c 0 items k i hall hnd hit
    exact hhit k ⟨r, hrfound, none, hlk⟩ hk
  have hnoref : ∀ it ∈ out, isRef it = false := by
    intro it hmem
    obtain ⟨k, hkv⟩ := List.mem_iff_getElem?.mp hmem
    have hklt : k < items.length := by
      rw [← hlen]
      exact (List.getElem?_eq_some.mp hkv).1
    obtain ⟨cls, i2, hr⟩ := hresk k hklt
    rw [hkv] at hr
    cases hr
    rfl
  refine ⟨out, hres, ?_⟩
  unfold derefResolve
  rw [buildCols_no_refs reg out 0 [] hnoref]
  simp only [derefStep]

/-- C5 witness: five references into collection `posts`, all resolvable. -/
theorem claim_C5_batching_witness :
    ∃ out,
      derefResolve [("Post", "posts")]
        [StoreRec.mk "posts" 1 "Post", StoreRec.mk "posts" 2 "Post",
         StoreRec.mk "posts" 3 "Post", StoreRec.mk "posts" 4 "Post",
         StoreRec.mk "posts" 5 "Post"]
        [RItem.dbref "posts" 1, RItem.dbref "posts" 2, RItem.dbref "posts" 3,
         RItem.dbref "posts" 4, RItem.dbref "posts" 5]
        = Except.ok (out,
            [Query.mk "posts"
              (dbrefIds
                [RItem.dbref "posts" 1, RItem.dbref "posts" 2,
                 RItem.dbref "posts" 3, RItem.dbref "posts" 4,
                 RItem.dbref "posts" 5])])
      ∧ derefResolve [("Post", "posts")]
          [StoreRec.mk "posts" 1 "Post", StoreRec.mk "posts" 2 "Post",
           StoreRec.mk "posts" 3 "Post", StoreRec.mk "posts" 4 "Post",
           StoreRec.mk "posts" 5 "Post"] out
          = Except.ok (out, []) :=
  claim_C5_batching [("Post", "posts")]
    [StoreRec.mk "posts" 1 "Post", StoreRec.mk "posts" 2 "Post",
     StoreRec.mk "posts" 3 "Post", StoreRec.mk "posts" 4 "Post",
     StoreRec.mk "posts" 5 "Post"]
    [RItem.dbref "posts" 1, RItem.dbref "posts" 2, RItem.dbref "posts" 3,
     RItem.dbref "posts" 4, RItem.dbref "posts" 5]
    "posts" (by decide) (by decide) (by decide) (by decide) (by decide)

/-- C6 (counterexample): dereferencing a container holding one direct
reference whose identifier matches no record leaves the raw placeholder in
the container (length 1, the `DBRef` entry still present), while the claim
requires the entry to be dropped. No error is raised. -/
theorem claim_C6_counterexample :
    derefResolve [] [] [RItem.dbref "posts" 7]
      = Except.ok ([RItem.dbref "posts" 7], [Query.mk "posts" [7]])
    ∧ ([RItem.dbref "posts" 7] : List RItem).length = 1
    ∧ RItem.dbref "posts" 7 ∈ ([RItem.dbref "posts" 7] : List RItem) :=
  ⟨rfl, rfl, by decide⟩

/-- C6 (amended): reference identifiers for which the batched lookup returns
no matching record raise no error, but their entries are *kept* in the
resolved container, unchanged, as the raw reference placeholder (they are not
dropped): the container's length is preserved and every unmatched position
still holds its original `DBRef`. -/
theorem claim_C6_amended (reg : List (String × String)) (db : List StoreRec)
    (items : List RItem) (c : String)
    (hall : ∀ it ∈ items, isDbrefTo c it = true)
    (hne : items ≠ [])
    (hnd : (dbrefIds items).Nodup)
    (hreg : ∀ r ∈ db, (lookupReg reg r.cls).isSome = true) :
    ∃ out qs, derefResolve reg db items = Except.ok (out, qs)
      ∧ out.length = items.length
      ∧ ∀ (k : Nat) (i : Int), items[k]? = some (RItem.dbref c i) →
          (∀ r ∈ db, ¬(r.coll = c ∧ r.id = i)) →
          out[k]? = some (RItem.dbref c i) := by
  have hcols := buildCols_all reg c items hall hne
  have hidm : buildIdMap (enumItems 0 items) [] = idmOf 0 items := by
    simpa using buildIdMap_eq c items 0 [] hall hnd (by simp)
  obtain ⟨out, heq, hlen, hunhit, hhit⟩ :=
    spliceFound_spec reg c (idmOf 0 items)
      (db.filter (fun r =>
        decide (r.coll = c ∧ r.id ∈ (idmOf 0 items).map Prod.fst)))
      items (fun r hr _ _ => hreg r (List.mem_of_mem_filter hr))
  refine ⟨out, [Query.mk c ((idmOf 0 items).map Prod.fst)], ?_, hlen, ?_⟩
  · unfold derefResolve
    rw [hcols]
    simp only [derefStep]
    rw [hidm, heq]
  · intro k i hk hnomatch
    have hnhits : ¬hitsPos
        (db.filter (fun r =>
          decide (r.coll = c ∧ r.id ∈ (idmOf 0 items).map Prod.fst)))
        (idmOf 0 items) k := by
      rintro ⟨r, hrf, o, hlk⟩
      obtain ⟨n, c2, hn, hp1⟩ := idmOf_inv 0 items r.id (k, o) hlk
      simp only [Nat.zero_add] at hp1
      rw [← hp1] at hn
      rw [hk] at hn
      simp only [Option.some.injEq, RItem.dbref.injEq] at hn
      obtain ⟨-, hid⟩ := hn
      have hrdb := List.mem_of_mem_filter hrf
      have hpred := List.of_mem_filter hrf
      rw [decide_eq_true_iff] at hpred
      exact hnomatch r hrdb ⟨hpred.1, hid.symm⟩
    rw [hunhit k hnhits]
    exact hk

/-- C6 amended witness: one unresolvable reference stays in place. -/
theorem claim_C6_amended_witness :
    ∃ out qs,
      derefResolve [("Post", "posts")] [] [RItem.dbref "posts" 7]
        = Except.ok (out, qs)
      ∧ out.length = ([RItem.dbref "posts" 7] : List RItem).length
      ∧ ∀ (k : Nat) (i : Int),
          ([RItem.dbref "posts" 7] : List RItem)[k]? = some (RItem.dbref "posts" i) →
          (∀ r ∈ ([] : List StoreRec), ¬(r.coll = "posts" ∧ r.id = i)) →
          out[k]? = some (RItem.dbref "posts" i) :=
  claim_C6_amended [("Post", "posts")] [] [RItem.dbref "posts" 7] "posts"
    (by decide) (by decide) (by decide) (by decide)

/-! ### C7: the index planner -/

theorem promOne_target_cons_noemb (p q : String) (qs : List String)
    (n d : String) (u : Bool) (uw : List String) (r : Bool)
    (h : (UField.mk n d u uw r none).name = p) :
    promOne p (q :: qs) (UField.mk n d u uw r none)
      = UField.mk n d u uw r none := by
  rw [promOne.eq_def, if_pos h]

theorem lookupPath_cons_ne_nil (flds : List UField) (p : String)
    (pt : List String) (chain : List UField)
    (h : lookupPath flds (p :: pt) = some chain) : chain ≠ [] := by
  cases hl : lookupUF flds p with
  | none =>
      simp only [lookupPath, hl] at h
      exact Option.noConfusion h
  | some f =>
      simp only [lookupPath, hl] at h
      cases pt with
      | nil =>
          simp only [Option.some.injEq] at h
          subst h
          simp
      | cons x xs =>
          cases he : f.embedded with
          | none =>
              simp only [he] at h
              exact Option.noConfusion h
          | some sub =>
              simp only [he] at h
              cases hlp : lookupPath sub (x :: xs) with
              | none =>
                  simp only [hlp, Option.map_none'] at h
                  exact Option.noConfusion h
              | some c2 =>
                  simp only [hlp, Option.map_some', Option.some.injEq] at h
                  subst h
                  simp

theorem childOne_some (n d : String) (u : Bool) (uw : List String) (r : Bool)
    (sub : List UField) :
    childOne (UField.mk n d u uw r (some sub))
      = UField.mk n d u uw r (some (promoteSchema sub)) := by
  rw [childOne.eq_def]

theorem childOne_none (n d : String) (u : Bool) (uw : List String) (r : Bool) :
    childOne (UField.mk n d u uw r none) = UField.mk n d u uw r none := by
  rw [childOne.eq_def]

theorem childOne_embedded (f : UField) :
    (childOne f).embedded = f.embedded.map promoteSchema := by
  obtain ⟨n, d, u, uw, r, e⟩ := f
  cases e with
  | none => rw [childOne_none]; rfl
  | some sub => rw [childOne_some]; rfl

/-- C3: deletion atomicity under DENY. For every document D (collection `c`,
id `i`) whose schema has a registered DENY delete rule with at least one
document still referencing D, the deletion event raises `OperationError` and
issues no destructive `delete`/`persist` call at all — the op list is empty,
so no document in any collection (including D itself) is deleted or modified;
the DENY check is a pre-flight step completed before any destructive call. -/
theorem claim_C3_deny_atomic (fuel : Nat) (rules : List DeleteRule)
    (s : Store) (c : String) (i : Int) (r : DeleteRule) (d : SDoc)
    (hr : r ∈ rules) (ht : r.target_coll = c) (hdeny : r.rule = DRule.deny)
    (hd : d ∈ s) (hcoll : d.coll = r.src_coll)
    (href : refersTo d r.field c i = true) :
    deleteEvent fuel rules s c i = (Except.error "OperationError", []) := by
  have hm : d ∈ matchingDocs s r c i := by
    unfold matchingDocs
    exact List.mem_filter.mpr ⟨hd, by simp [hcoll, href]⟩
  have hne : matchingDocs s r c i ≠ [] := List.ne_nil_of_mem hm
  have hviol : denyViolated rules s c i = true := by
    unfold denyViolated
    rw [List.any_eq_true]
    refine ⟨r, ?_, ?_⟩
    · unfold rulesFor
      exact List.mem_filter.mpr ⟨hr, by simp [ht]⟩
    · cases hmd : matchingDocs s r c i with
      | nil => exact absurd hmd hne
      | cons a l => simp [hdeny, hmd, List.isEmpty]
  rw [deleteEvent]
  simp [hviol]

theorem claim_C3_deny_atomic_witness :
    deleteEvent 5 [DeleteRule.mk "authors" "posts" "author" DRule.deny]
      [SDoc.mk "authors" 1 [], SDoc.mk "posts" 2 [("author", some ("authors", 1))]]
      "authors" 1 = (Except.error "OperationError", []) :=
  claim_C3_deny_atomic 5
    [DeleteRule.mk "authors" "posts" "author" DRule.deny]
    [SDoc.mk "authors" 1 [], SDoc.mk "posts" 2 [("author", some ("authors", 1))]]
    "authors" 1
    (DeleteRule.mk "authors" "posts" "author" DRule.deny)
    (SDoc.mk "posts" 2 [("author", some ("authors", 1))])
    (by decide) rfl rfl (by decide) rfl (by decide)

end Mongoengine
